import Mathlib

/-!
Verification development for the mpdsub Subsonic-to-MPD bridge.

The definitions below are a shallow embedding of the Go sources:
`files.go` (indexFiles / filterFiles / tagFiles), `server.go`
(parseContext / decodePassword / ServeHTTP authentication) and
`handlers.go` (getMusicDirectory / stream).  Strings are modelled by
Lean `String`, Go `int` by `Int`, Go maps by association lists or
functions, and fallible calls by `Except` / `Option`.  Go path
manipulation (`path/filepath` on a Unix separator `/`) is modelled by
the `clean`, `dir`, `base`, `ext` and `join` functions below.
-/

namespace Mpdsub

/-! ### Path primitives (Go `path/filepath`, Unix separator) -/

/-- Segment-processing loop of Go `filepath.Clean`: empty and `.`
segments are dropped, `..` pops the previous segment (or is kept at the
front of a relative path, or dropped at the root of a rooted one), and
any other segment is pushed.  The accumulating `stack` is kept in
reverse order. -/
def cleanLoop (rooted : Bool) : List String → List String → List String
  | stack, [] => stack.reverse
  | stack, seg :: rest =>
    if seg = "" ∨ seg = "." then cleanLoop rooted stack rest
    else if seg = ".." then
      match stack with
      | [] => if rooted then cleanLoop rooted [] rest else cleanLoop rooted [".."] rest
      | top :: pop =>
        if top = ".." then cleanLoop rooted (".." :: top :: pop) rest
        else cleanLoop rooted pop rest
    else cleanLoop rooted (seg :: stack) rest

/-- Splitting a character list on the separator, as Go
`strings.Split(path, "/")` does (the empty input yields one empty
segment). -/
def splitSep : List Char → List (List Char)
  | [] => [[]]
  | c :: rest =>
    match splitSep rest with
    | [] => [[]]
    | h :: t => if c = '/' then [] :: h :: t else (c :: h) :: t

/-- Joining segments with the separator, as Go
`strings.Join(segs, "/")` does. -/
def joinSep : List String → String
  | [] => ""
  | [x] => x
  | x :: y :: rest => x ++ "/" ++ joinSep (y :: rest)

/-- Go `filepath.Clean` on a Unix separator: shortest lexical
equivalent of `path` (empty input yields `.`). -/
def clean (path : String) : String :=
  if path = "" then "."
  else
    let rooted := match path.toList with
      | c :: _ => c = '/'
      | [] => false
    let stack := cleanLoop rooted [] ((splitSep path.toList).map String.mk)
    if rooted then "/" ++ joinSep stack
    else if stack = [] then "." else joinSep stack

/-- Go `filepath.Dir`: everything up to and including the final
separator, then cleaned (`.` when there is no separator). -/
def dir (path : String) : String :=
  clean (String.mk ((path.toList.reverse.dropWhile (fun c => c ≠ '/')).reverse))

/-- Go `filepath.Base`: the last element of the path after trailing
separators are removed (`.` for the empty path, `/` for all-separator
paths). -/
def base (path : String) : String :=
  if path = "" then "."
  else
    let l := path.toList.reverse.dropWhile (fun c => c = '/')
    let b := l.takeWhile (fun c => c ≠ '/')
    if b = [] then "/" else String.mk b.reverse

/-- Go `filepath.Ext`: the suffix of the final path element starting at
its last dot, or the empty string when the final element has no dot. -/
def ext (path : String) : String :=
  let seg := path.toList.reverse.takeWhile (fun c => c ≠ '/')
  let pre := seg.takeWhile (fun c => c ≠ '.')
  if pre.length = seg.length then "" else String.mk ('.' :: pre.reverse)

/-- Go `filepath.Join` restricted to the two-argument form used by the
server: join with a separator, then clean. -/
def join (a b : String) : String :=
  if a ≠ "" then clean (a ++ "/" ++ b)
  else if b ≠ "" then clean b
  else ""

/-- Go `strings.Count(s, string(os.PathSeparator))`: the number of
separator characters in `s`. -/
def countSep (s : String) : Nat := s.toList.count '/'

/-- Go `strings.Contains(s, string(os.PathSeparator))`. -/
def containsSep (s : String) : Bool := s.toList.contains '/'

/-- Go `strings.HasPrefix(s, pre)`, stated on the character lists of
the two strings. -/
def hasPrefixStr (s pre : String) : Bool := pre.toList.isPrefixOf s.toList

/-- Go `strings.TrimPrefix(s, ".")` as used on extensions. -/
def trimPrefixDot (s : String) : String :=
  if hasPrefixStr s "." then s.drop 1 else s

end Mpdsub

namespace Mpdsub

/-! ### Data model (`files.go`) -/

/-- Go `indexedFile`: a file with an associated ID, name, and a boolean
to indicate if it is a directory or not. -/
structure indexedFile where
  ID : Int
  Name : String
  Dir : Bool
deriving Repr, DecidableEq

/-- Go `metadataFile`: an `indexedFile` with metadata attached. -/
structure metadataFile where
  file : indexedFile
  Artist : String
  Album : String
  Title : String
deriving Repr, DecidableEq

/-- Decidable equality for `Except`, so that concrete runs of the
fallible operations can be checked by evaluation. -/
instance {ε α : Type} [DecidableEq ε] [DecidableEq α] : DecidableEq (Except ε α) := fun a b =>
  match a, b with
  | Except.ok x, Except.ok y =>
    if h : x = y then .isTrue (congrArg Except.ok h)
    else .isFalse (fun hh => h (Except.ok.inj hh))
  | Except.error x, Except.error y =>
    if h : x = y then .isTrue (congrArg Except.error h)
    else .isFalse (fun hh => h (Except.error.inj hh))
  | Except.ok _, Except.error _ => .isFalse (fun hh => Except.noConfusion hh)
  | Except.error _, Except.ok _ => .isFalse (fun hh => Except.noConfusion hh)

/-! ### Virtual index builder (`indexFiles` in `files.go`)

The Go loop `for d := filepath.Dir(f); d != "."; d = filepath.Dir(d)`
walks the ancestor directories of `f`, pushing each not-yet-seen one on
a stack, which is then popped (root-most first) to emit directory
entries before the file entry.  The walk is embedded with an explicit
fuel of `f.length + 1`: every `dir` step on a separator-free or
relative path strictly shortens the string, so this fuel is never
exhausted on inputs where the Go loop terminates (on a rooted path the
Go loop never terminates, and the embedding truncates instead). -/

/-- The ancestor walk of `indexFiles`: returns the updated `seen` set
(a Go `map[string]struct{}`, modelled as a list without duplicates)
and the list of newly pushed directories in push order (nearest parent
first). -/
def walkDirs : Nat → String → List String → List String × List String
  | 0, _, seen => (seen, [])
  | fuel + 1, d, seen =>
    if d = "." then (seen, [])
    else if d ∈ seen then walkDirs fuel (dir d) seen
    else
      let r := walkDirs fuel (dir d) (d :: seen)
      (r.1, d :: r.2)

/-- The sequence of directories visited by the ancestor walk, with the
same fuel as `walkDirs`. -/
def dirIter : Nat → String → List String
  | 0, _ => []
  | fuel + 1, d => if d = "." then [] else d :: dirIter fuel (dir d)

/-- Whether the ancestor walk starting at `d` reaches `.` within the
given fuel (equivalently: whether the Go loop terminates). -/
def chainDone : Nat → String → Bool
  | 0, d => d == "."
  | fuel + 1, d => d == "." || chainDone fuel (dir d)

/-- The ancestor directories of a file `f`, nearest parent first, as
walked by `indexFiles`. -/
def ancestorChain (f : String) : List String := dirIter (f.length + 1) (dir f)

/-- A path is good when the ancestor walk of the Go code terminates on
it within the embedding's fuel. -/
def goodPath (f : String) : Bool := chainDone (f.length + 1) (dir f)

/-- One iteration of the `indexFiles` loop: walk the ancestors of `f`,
emit the newly seen directories root-most first (popping the stack
until its `""` sentinel), then emit the file entry. -/
def indexStep (acc : List String × Nat × List indexedFile) (f : String) :
    List String × Nat × List indexedFile :=
  let seen := acc.1
  let idx := acc.2.1
  let out := acc.2.2
  let w := walkDirs (f.length + 1) (dir f) seen
  let emitted := w.2.reverse.takeWhile (fun d => d ≠ "")
  let dirEntries := emitted.enum.map (fun p => indexedFile.mk (Int.ofNat (idx + p.1)) p.2 true)
  (w.1, idx + emitted.length + 1,
    out ++ dirEntries ++ [indexedFile.mk (Int.ofNat (idx + emitted.length)) f false])

/-- Go `indexFiles`: builds a slice of `indexedFile`s from a file list
returned by MPD. -/
def indexFiles (files : List String) : List indexedFile :=
  (files.foldl indexStep ([], 0, [])).2.2

/-! ### Subtree filter (`filterFiles` in `files.go`)

`start` is the Go `int` parsed from the request, hence `Int`; the
result is `none` exactly when the Go code panics with a slice or index
out of range (negative `start`, and the two in-range accesses that are
in fact unreachable). -/

/-- Go `filterFiles`: all items which belong in the directory specified
by its index `start`. -/
def filterFiles (files : List indexedFile) (start : Int) : Option (List indexedFile) :=
  if (files.length : Int) ≤ start then some []
  else if start < 0 then none
  else
    match files.drop start.toNat with
    | [] => none
    | f0 :: rest =>
      let out := (f0 :: rest).takeWhile (fun f => hasPrefixStr f.Name f0.Name)
      match out with
      | [] => none
      | o0 :: _ =>
        let sc := countSep o0.Name
        let kept := out.filter (fun f => countSep f.Name ≤ sc + 1)
        some (kept.drop 1)

/-! ### Metadata tagger (`tagFiles` in `files.go`)

The MPD database is modelled as the `ReadComments` lookup: a function
from a path to `Except` an error message an attribute map (`mpd.Attrs`,
an association list with absent keys reading as `""`). -/

/-- Reading a key from `mpd.Attrs` (a Go string map): absent keys give
the zero value `""`. -/
def attrsGet (attrs : List (String × String)) (k : String) : String :=
  match attrs.lookup k with
  | some v => v
  | none => ""

/-- The `metadataFile` built by `tagFiles` for a non-directory entry
from the attributes read from the database. -/
def fileMeta (attrs : List (String × String)) (f : indexedFile) : metadataFile :=
  ⟨f, attrsGet attrs "ARTIST", attrsGet attrs "ALBUM", attrsGet attrs "TITLE"⟩

/-- First pass of `tagFiles`: directories get their base name as title,
files get their attributes and are recorded in the parent-directory
cache (later files overwrite earlier ones); any lookup error aborts. -/
def tagPass1 (db : String → Except String (List (String × String))) :
    List indexedFile → (String → Option metadataFile) →
    Except String (List metadataFile × (String → Option metadataFile))
  | [], cache => .ok ([], cache)
  | f :: rest, cache =>
    if f.Dir then
      match tagPass1 db rest cache with
      | .error e => .error e
      | .ok (l, c) => .ok (⟨f, "", "", base f.Name⟩ :: l, c)
    else
      match db f.Name with
      | .error e => .error e
      | .ok attrs =>
        let newf := fileMeta attrs f
        match tagPass1 db rest (fun k => if k = dir f.Name then some newf else cache k) with
        | .error e => .error e
        | .ok (l, c) => .ok (newf :: l, c)

/-- Second pass of `tagFiles`: a non-top-level directory found in the
cache inherits the cached artist and album, and its title is set to
the cached album. -/
def tagFix (cache : String → Option metadataFile) (m : metadataFile) : metadataFile :=
  if containsSep m.file.Name && m.file.Dir then
    match cache m.file.Name with
    | some ff => { m with Artist := ff.Artist, Album := ff.Album, Title := ff.Album }
    | none => m
  else m

/-- Go `tagFiles`: attaches metadata to an input slice of
`indexedFile`s using the input database. -/
def tagFiles (db : String → Except String (List (String × String)))
    (files : List indexedFile) : Except String (List metadataFile) :=
  match tagPass1 db files (fun _ => none) with
  | .error e => .error e
  | .ok (out, cache) => .ok (out.map (tagFix cache))

end Mpdsub

namespace Mpdsub

/-! ### Protocol gateway (`server.go`) -/

/-- The authentication-relevant part of Go `Config`. -/
structure Config where
  SubsonicUser : String
  SubsonicPassword : String
deriving Repr, DecidableEq

/-- Go `encoding/hex` digit decoding. -/
def fromHexChar (c : Char) : Option Nat :=
  if '0' ≤ c ∧ c ≤ '9' then some (c.toNat - '0'.toNat)
  else if 'a' ≤ c ∧ c ≤ 'f' then some (c.toNat - 'a'.toNat + 10)
  else if 'A' ≤ c ∧ c ≤ 'F' then some (c.toNat - 'A'.toNat + 10)
  else none

/-- Go `hex.DecodeString` with its error discarded: decodes hex digit
pairs left to right and returns the bytes decoded before the first
malformed character or odd-length tail. -/
def hexDecode : List Char → List Nat
  | a :: b :: rest =>
    match fromHexChar a, fromHexChar b with
    | some x, some y => (16 * x + y) :: hexDecode rest
    | _, _ => []
  | _ => []

/-- Go `decodePassword`: strips the `enc:` prefix and hex-decodes the
remainder (decoded bytes are rendered back as characters; passwords
are ASCII in all scenarios of interest); without the prefix the input
is returned unchanged. -/
def decodePassword (p : String) : String :=
  if hasPrefixStr p "enc:" then
    String.mk ((hexDecode (p.drop 4).toList).map Char.ofNat)
  else p

/-- Outcome of the authentication phase of `ServeHTTP`: dispatch to the
handler mux, or one of the two error envelopes. -/
inductive AuthOutcome where
  | ok
  | missingParameter
  | unauthorized
deriving Repr, DecidableEq

/-- The authentication phase of `ServeHTTP` over `parseContext`, given
the request query parameters `u`, `p`, `c`, `v` (the empty string
standing for an absent parameter, as with Go `url.Values.Get`):
`parseContext` rejects a missing parameter, then `ServeHTTP` compares
user and decoded password against the configuration. -/
def serveAuth (cfg : Config) (u p c v : String) : AuthOutcome :=
  if u = "" then .missingParameter
  else if decodePassword p = "" then .missingParameter
  else if c = "" then .missingParameter
  else if v = "" then .missingParameter
  else if u ≠ cfg.SubsonicUser ∨ decodePassword p ≠ cfg.SubsonicPassword then .unauthorized
  else .ok

/-- Modelled from the spec: token-plus-salt authentication.  The
`parseContext`/`ServeHTTP` version under `src/server.go` has no `t`/`s`
handling, but its own test suite exercises it (`TestServerServeHTTP`
cases `missing salt` and `OK token and salt`, and `TestServerClose`
calls a `Close` method absent from `src`), so the credential-proof
dispatch is modelled from spec section 4.4: `u`, `c`, `v` are
mandatory; the proof is either `p` (optionally `enc:`-hex-encoded,
compared to the configured password) or `t` + `s` where `t` must equal
the hex digest of the keyed hash of (configured password ‖ salt),
abstracted here as the function `digest` applied to that
concatenation; missing both proofs is a missing parameter, and a
mismatch of either proof or of the username is unauthorized. -/
def authTokenSalt (digest : String → String) (cfg : Config)
    (u p t s c v : String) : AuthOutcome :=
  if u = "" ∨ c = "" ∨ v = "" then .missingParameter
  else if p ≠ "" then
    if u = cfg.SubsonicUser ∧ decodePassword p = cfg.SubsonicPassword then .ok
    else .unauthorized
  else if t ≠ "" ∧ s ≠ "" then
    if u = cfg.SubsonicUser ∧ t = digest (cfg.SubsonicPassword ++ s) then .ok
    else .unauthorized
  else .missingParameter

end Mpdsub

namespace Mpdsub

/-! ### Handlers (`handlers.go`) -/

/-- The fields of the rendered `child` XML element that
`getMusicDirectory` fills in. -/
structure child where
  ID : String
  Album : String
  Artist : String
  IsDir : Bool
  Suffix : String
  Title : String
deriving Repr, DecidableEq

/-- The rendered `directory` element of `getMusicDirectory`. -/
structure musicDirectoryContainer where
  ID : String
  Name : String
  Children : List child
deriving Repr, DecidableEq

/-- Outcome of `getMusicDirectory` after the `id` parameter has been
parsed: the generic error envelope (tagging failure), a transport 404,
an out-of-bounds slice access (Go panic, reachable for negative ids),
or the rendered directory. -/
inductive DirectoryResponse where
  | generic
  | notFound
  | outOfBounds
  | dirResult (d : musicDirectoryContainer)
deriving Repr, DecidableEq

/-- Go `Server.getMusicDirectory` after `strconv.Atoi` succeeded on the
`id` parameter and `db.List("file")` returned `fs`: index, filter,
tag, then render (empty result is a transport 404; the directory name
is `files[0].Name` and each child carries id, title, artist, album,
directory flag and the dot-stripped extension). -/
def getMusicDirectory (db : String → Except String (List (String × String)))
    (fs : List String) (id : Int) : DirectoryResponse :=
  match filterFiles (indexFiles fs) id with
  | none => .outOfBounds
  | some filtered =>
    match tagFiles db filtered with
    | .error _ => .generic
    | .ok files =>
      match files with
      | [] => .notFound
      | f0 :: _ =>
        .dirResult ⟨toString id, f0.file.Name,
          files.map (fun f => ⟨toString f.file.ID, f.Album, f.Artist, f.file.Dir,
            trimPrefixDot (ext f.file.Name), f.Title⟩)⟩

/-- Outcome of `stream` after the `id` parameter has been parsed: a
transport 404, an out-of-bounds index access (Go panic, reachable for
negative ids), the generic envelope (open failure), or the opened file
handed to `http.ServeContent` with its resolved path, bytes, and the
content type derived from the path's extension. -/
inductive StreamOutcome where
  | notFound
  | outOfBounds
  | generic
  | content (path : String) (bytes : List Nat) (ctype : String)
deriving Repr, DecidableEq

/-- Go `Server.stream` after `strconv.Atoi` succeeded on the `id`
parameter and `db.List("file")` returned `fs`.  The filesystem is the
`fs.Open` collaborator (a path either opens to its byte content or
fails), and `mime` abstracts `mime.TypeByExtension` as used by
`http.ServeContent` on the served name: the content type is `mime`
applied to the extension of the resolved path. -/
def streamView (fsys : String → Option (List Nat)) (mime : String → String)
    (musicDir : String) (fs : List String) (id : Int) : StreamOutcome :=
  let files := indexFiles fs
  if (files.length : Int) ≤ id then .notFound
  else if id < 0 then .outOfBounds
  else
    match files.get? id.toNat with
    | none => .outOfBounds
    | some e =>
      let p := join musicDir e.Name
      match fsys p with
      | none => .generic
      | some bytes => .content p bytes (mime (ext p))

end Mpdsub


namespace Mpdsub

/-! ### Spec-side definitions used by individual claims -/

/-- The subtree filter as claim C3 words it: exactly the entries whose
separator count is the start entry's separator count plus one and
whose path has the start entry's path as a string prefix (the start
entry itself and deeper descendants are thereby excluded), in original
index order; an out-of-range id gives the empty sequence. -/
def childrenSpec (files : List indexedFile) (start : Nat) : List indexedFile :=
  match files.get? start with
  | none => []
  | some st => files.filter (fun f =>
      hasPrefixStr f.Name st.Name && countSep f.Name == countSep st.Name + 1)

/-- A one-file in-memory database used to instantiate theorems on
concrete inputs. -/
def exDb : String → Except String (List (String × String)) := fun u =>
  if u = "foo/a.mp3" then Except.ok [("ARTIST", "x"), ("ALBUM", "y"), ("TITLE", "z")]
  else Except.error "nope"

/-- A nested-directory in-memory database used to instantiate the
tagging theorems on concrete inputs. -/
def exDb2 : String → Except String (List (String × String)) := fun u =>
  if u = "a/b/c.mp3" then Except.ok [("ARTIST", "ar"), ("ALBUM", "al"), ("TITLE", "ti")]
  else Except.error "nope"

/-- The index entries matching `exDb2`. -/
def exFiles2 : List indexedFile :=
  [⟨0, "a", true⟩, ⟨1, "a/b", true⟩, ⟨2, "a/b/c.mp3", false⟩]

/-- The names of the directory entries of an index, in index order. -/
def dirNames (out : List indexedFile) : List String :=
  (out.filter (fun e => e.Dir)).map indexedFile.Name

/-- The number of distinct ancestor directories across all paths of a
listing (the spec-side count of claim C6). -/
def distinctAncestors (files : List String) : Nat :=
  ((files.flatMap ancestorChain).toFinset).card

/-- Invariant of the `indexFiles` fold used for the counting claim: the
state is `(seen, idx, out)` after processing the `processed` prefix of
the input. -/
structure CountInv (processed : List String) (st : List String × Nat × List indexedFile) : Prop where
  idx_eq : st.2.1 = st.2.2.length
  ids : ∀ k (hk : k < st.2.2.length), st.2.2[k].ID = (k : Int)
  seen_iff : ∀ x : String, x ∈ st.1 ↔ x ∈ dirNames st.2.2
  seen_nodup : st.1.Nodup
  dirs_nodup : (dirNames st.2.2).Nodup
  seen_set : st.1.toFinset = (processed.flatMap ancestorChain).toFinset
  file_count : (st.2.2.filter (fun e => !e.Dir)).length = processed.length

/-- Invariant of the `indexFiles` fold used for the id-ordering claim
(all processed paths are assumed good, i.e. their ancestor walks
terminate). -/
structure OrderInv (processed : List String) (st : List String × Nat × List indexedFile) : Prop where
  idx_eq : st.2.1 = st.2.2.length
  ids : ∀ k (hk : k < st.2.2.length), st.2.2[k].ID = (k : Int)
  seen_iff : ∀ x : String, x ∈ st.1 ↔
    ∃ i, ∃ hi : i < st.2.2.length, st.2.2[i].Dir = true ∧ st.2.2[i].Name = x
  name_inj : ∀ i1 i2 (h1 : i1 < st.2.2.length) (h2 : i2 < st.2.2.length),
    st.2.2[i1].Dir = true → st.2.2[i2].Dir = true →
    st.2.2[i1].Name = st.2.2[i2].Name → i1 = i2
  file_processed : ∀ j (hj : j < st.2.2.length),
    st.2.2[j].Dir = false → st.2.2[j].Name ∈ processed
  closure_file : ∀ f ∈ processed, ∀ x ∈ ancestorChain f, x ∈ st.1
  closure_dir : ∀ d ∈ st.1, ∀ n, chainDone n (dir d) = true →
    ∀ x ∈ dirIter n (dir d), x ∈ st.1
  order_dir_file : ∀ i j (hi : i < st.2.2.length) (hj : j < st.2.2.length),
    st.2.2[i].Dir = true → st.2.2[j].Dir = false →
    st.2.2[i].Name ∈ ancestorChain st.2.2[j].Name → i < j
  order_dir_dir : ∀ i1 i2 (h1 : i1 < st.2.2.length) (h2 : i2 < st.2.2.length),
    st.2.2[i1].Dir = true → st.2.2[i2].Dir = true →
    ∀ n, chainDone n (dir st.2.2[i1].Name) = true →
    st.2.2[i2].Name ∈ dirIter n (dir st.2.2[i1].Name) → i2 < i1

/-! ### Claim C5: password authentication -/

/-- C5 (amended): a password with the `enc:` prefix is hex-decoded
pairwise until the first invalid character or odd-length tail (a
partial decode, not an empty one), and the decoded string is compared
against the configured password; a decoded-empty password is treated
as a missing parameter rather than compared; otherwise a comparison or
username mismatch yields the Unauthorized outcome, and `p=test` or
`p=enc:74657374` against configured user/password test/test yields ok. -/
theorem serveAuth_password_rules (cfg : Config) (u p c v : String)
    (hu : u ≠ "") (hc : c ≠ "") (hv : v ≠ "") :
    (decodePassword p = "" → serveAuth cfg u p c v = AuthOutcome.missingParameter) ∧
    (decodePassword p ≠ "" → u = cfg.SubsonicUser → decodePassword p = cfg.SubsonicPassword →
      serveAuth cfg u p c v = AuthOutcome.ok) ∧
    (decodePassword p ≠ "" → ¬(u = cfg.SubsonicUser ∧ decodePassword p = cfg.SubsonicPassword) →
      serveAuth cfg u p c v = AuthOutcome.unauthorized) ∧
    decodePassword ("enc:" ++ "74657374") = "test" ∧
    decodePassword ("enc:" ++ "74657374zz") = "test" ∧
    decodePassword ("enc:" ++ "g0") = "" ∧
    serveAuth ⟨"test", "test"⟩ "test" "test" "test" "1.14.0" = AuthOutcome.ok ∧
    serveAuth ⟨"test", "test"⟩ "test" "enc:74657374" "test" "1.14.0" = AuthOutcome.ok ∧
    serveAuth ⟨"test", "test"⟩ "test" "foo" "test" "1.14.0" = AuthOutcome.unauthorized := by
  refine ⟨?_, ?_, ?_, by decide, by decide, by decide, by decide, by decide, by decide⟩
  · intro h
    simp only [serveAuth, if_neg hu, if_pos h]
  · intro h h1 h2
    simp only [serveAuth, if_neg hu, if_neg h, if_neg hc, if_neg hv]
    rw [if_neg]
    push_neg
    exact ⟨h1, h2⟩
  · intro h h2
    simp only [serveAuth, if_neg hu, if_neg h, if_neg hc, if_neg hv]
    rw [if_pos]
    rcases not_and_or.mp h2 with h3 | h3
    · exact Or.inl h3
    · exact Or.inr h3

/-- C5 witness: the amended behaviour at a concrete input. -/
theorem serveAuth_password_rules_witness :
    serveAuth ⟨"test", "test"⟩ "test" "enc:74657374" "test" "1.14.0" = AuthOutcome.ok :=
  (serveAuth_password_rules ⟨"test", "test"⟩ "test" "enc:74657374" "test" "1.14.0"
    (by decide) (by decide) (by decide)).2.1 (by decide) (by decide) (by decide)

/-- C5 counterexample: `enc:74657374zz` is invalid hex, yet it is not
treated as an empty password (the pairs before the bad character
decode to `test`) and authentication succeeds instead of failing with
the Unauthorized code; and a password decoding to the empty string
(`enc:g0`) yields the MissingParameter outcome, not a comparison
failure. -/
theorem decodePassword_invalid_hex_counterexample :
    serveAuth ⟨"test", "test"⟩ "test" "enc:74657374zz" "test" "1.14.0" = AuthOutcome.ok ∧
    decodePassword "enc:74657374zz" ≠ "" ∧
    AuthOutcome.ok ≠ AuthOutcome.unauthorized ∧
    serveAuth ⟨"test", "x"⟩ "test" "enc:g0" "test" "1.14.0" = AuthOutcome.missingParameter ∧
    AuthOutcome.missingParameter ≠ AuthOutcome.unauthorized := by decide

/-! ### Claim C2: token-plus-salt authentication (spec-modelled) -/

/-- C2: under the spec-modelled credential dispatch, a request carrying
nonempty `u`, `c`, `v`, `t`, `s` (and no `p`) with the correct
username is authenticated exactly when the token equals the digest of
(configured password ‖ salt); missing both forms of proof is a
MissingParameter failure; a mismatch under either form is
Unauthorized. -/
theorem authTokenSalt_credential_proof (digest : String → String) (cfg : Config)
    (u t s c v : String) (hu : u ≠ "") (hc : c ≠ "") (hv : v ≠ "")
    (ht : t ≠ "") (hs : s ≠ "") (huser : u = cfg.SubsonicUser) :
    (t = digest (cfg.SubsonicPassword ++ s) →
      authTokenSalt digest cfg u "" t s c v = AuthOutcome.ok) ∧
    (∀ t2 s2 : String, t2 = "" ∨ s2 = "" →
      authTokenSalt digest cfg u "" t2 s2 c v = AuthOutcome.missingParameter) ∧
    (t ≠ digest (cfg.SubsonicPassword ++ s) →
      authTokenSalt digest cfg u "" t s c v = AuthOutcome.unauthorized) ∧
    (∀ p : String, p ≠ "" → decodePassword p ≠ cfg.SubsonicPassword →
      authTokenSalt digest cfg u p t s c v = AuthOutcome.unauthorized) := by
  have hmiss : ¬(u = "" ∨ c = "" ∨ v = "") := by
    simp [hu, hc, hv]
  refine ⟨?_, ?_, ?_, ?_⟩
  · intro hdig
    have ht2 : digest (cfg.SubsonicPassword ++ s) ≠ "" := hdig ▸ ht
    simp only [authTokenSalt, if_neg hmiss]
    simp [ht, hs, huser, hdig, ht2]
  · intro t2 s2 h2
    simp only [authTokenSalt, if_neg hmiss]
    have : ¬(t2 ≠ "" ∧ s2 ≠ "") := by
      rcases h2 with h2 | h2 <;> simp [h2]
    simp [this]
  · intro hdig
    simp only [authTokenSalt, if_neg hmiss]
    simp [ht, hs, hdig]
  · intro p hp hbad
    simp only [authTokenSalt, if_neg hmiss]
    simp [hp, hbad]

/-- C2 witness: a concrete token-and-salt request authenticating
against a concrete digest function. -/
theorem authTokenSalt_credential_proof_witness :
    authTokenSalt (fun x => "h" ++ x) ⟨"test", "sesame"⟩
      "test" "" "hsesamec19b2d" "c19b2d" "cl" "1.14.0" = AuthOutcome.ok :=
  (authTokenSalt_credential_proof (fun x => "h" ++ x) ⟨"test", "sesame"⟩
    "test" "hsesamec19b2d" "c19b2d" "cl" "1.14.0"
    (by decide) (by decide) (by decide) (by decide) (by decide) (by decide)).1 (by decide)

end Mpdsub

namespace Mpdsub

/-! ### Claim C1: getMusicDirectory rendering -/

/-- C1 counterexample: for the listing `["foo/a.mp3"]` the id `0`
resolves to the directory entry `foo`, yet the rendered directory's
name is `foo/a.mp3` (the first retained child), not `foo`. -/
theorem getMusicDirectory_start_name_counterexample :
    (indexFiles ["foo/a.mp3"]).get? 0 = some ⟨0, "foo", true⟩ ∧
    getMusicDirectory exDb ["foo/a.mp3"] 0 =
      DirectoryResponse.dirResult ⟨"0", "foo/a.mp3",
        [⟨"1", "y", "x", false, "mp3", "z"⟩]⟩ ∧
    ("foo/a.mp3" : String) ≠ "foo" := by decide

/-- C1 (amended): whenever the filtered and tagged result is non-empty,
the rendered directory element's name equals the full path of the
first retained child (the head of the filtered-and-tagged sequence,
not the starting entry), its id is the requested id, and each child
carries its id, title, artist, album, directory flag, and the
extension of its own path's trailing segment after the last dot with
the dot stripped (computed for every child, file or directory). -/
theorem getMusicDirectory_renders_first_child
    (db : String → Except String (List (String × String)))
    (fs : List String) (id : Int) (filtered : List indexedFile)
    (f0 : metadataFile) (rest : List metadataFile)
    (hf : filterFiles (indexFiles fs) id = some filtered)
    (ht : tagFiles db filtered = Except.ok (f0 :: rest)) :
    getMusicDirectory db fs id = DirectoryResponse.dirResult
      ⟨toString id, f0.file.Name,
        (f0 :: rest).map (fun f => ⟨toString f.file.ID, f.Album, f.Artist, f.file.Dir,
          trimPrefixDot (ext f.file.Name), f.Title⟩)⟩ := by
  simp [getMusicDirectory, hf, ht]

/-- C1 witness: the amended rendering at a concrete input. -/
theorem getMusicDirectory_renders_first_child_witness :
    getMusicDirectory exDb ["foo/a.mp3"] 0 = DirectoryResponse.dirResult
      ⟨"0", "foo/a.mp3", [⟨"1", "y", "x", false, "mp3", "z"⟩]⟩ := by
  have h := getMusicDirectory_renders_first_child exDb ["foo/a.mp3"] 0
    [⟨1, "foo/a.mp3", false⟩] ⟨⟨1, "foo/a.mp3", false⟩, "x", "y", "z"⟩ []
    (by decide) (by decide)
  rw [h]
  decide

end Mpdsub

namespace Mpdsub

/-! ### Claim C3: the subtree filter -/

/-- C3 counterexample: in the index `[foo (dir), foobar]` the entry
`foobar` has separator count `0`, not `0 + 1`, yet `filterFiles`
returns it as a child of the in-range directory id `0` (it lies in the
contiguous string-prefix run and its separator count does not exceed
the bound), so the filter result differs from the entries the claim
describes. -/
theorem filterFiles_depth_counterexample :
    filterFiles [⟨0, "foo", true⟩, ⟨1, "foobar", false⟩] 0 =
      some [⟨1, "foobar", false⟩] ∧
    childrenSpec [⟨0, "foo", true⟩, ⟨1, "foobar", false⟩] 0 = [] ∧
    some [(⟨1, "foobar", false⟩ : indexedFile)] ≠ some ([] : List indexedFile) := by
  decide

/-- C3 (amended): an out-of-range id still returns the empty sequence;
for an id in range, the result is the contiguous run of entries
starting at the start entry whose paths have the start entry's path as
a string prefix (stopping at the first entry without that prefix),
kept only when their separator count is at most the start entry's
separator count plus one, with the first element (the start entry
itself) dropped — entries at the same depth that merely share the
string prefix are included, and prefix-sharing entries after the first
break are not. -/
theorem filterFiles_characterization (files : List indexedFile) (start : Int) :
    ((files.length : Int) ≤ start → filterFiles files start = some []) ∧
    (∀ _h0 : 0 ≤ start, ∀ _h1 : start < (files.length : Int), ∀ st : indexedFile,
      files.get? start.toNat = some st →
      filterFiles files start = some
        ((((files.drop start.toNat).takeWhile (fun f => hasPrefixStr f.Name st.Name)).filter
          (fun f => countSep f.Name ≤ countSep st.Name + 1)).drop 1)) := by
  constructor
  · intro h
    simp [filterFiles, h]
  · intro h0 h1 st hst
    have hnle : ¬ ((files.length : Int) ≤ start) := not_le.mpr h1
    have hnneg : ¬ (start < 0) := not_lt.mpr h0
    obtain ⟨hl, he⟩ := List.get?_eq_some.mp hst
    have hdrop : files.drop start.toNat = st :: files.drop (start.toNat + 1) := by
      rw [List.drop_eq_getElem_cons hl]
      congr 1
    have hpre : hasPrefixStr st.Name st.Name = true := by
      simp [hasPrefixStr, List.isPrefixOf_iff_prefix]
    simp only [filterFiles, if_neg hnle, if_neg hnneg, hdrop, List.takeWhile_cons, hpre,
      if_true, if_pos]

/-- C3 witness: the amended description at a concrete in-range input. -/
theorem filterFiles_characterization_witness :
    filterFiles [⟨0, "foo", true⟩, ⟨1, "foo/bar", false⟩] 0 =
      some [⟨1, "foo/bar", false⟩] := by
  have h := (filterFiles_characterization [⟨0, "foo", true⟩, ⟨1, "foo/bar", false⟩] 0).2
    (by decide) (by decide) ⟨0, "foo", true⟩ (by decide)
  rw [h]
  decide

/-! ### Claim C9: stream resolution -/

/-- C9: for a well-formed non-negative id, an id at or beyond the index
length yields the transport 404 outcome (no envelope), and otherwise
the server opens the join of the configured music directory with the
resolved entry's path and serves its byte content with the content
type derived from that path's extension. -/
theorem streamView_resolves (fsys : String → Option (List Nat)) (mime : String → String)
    (musicDir : String) (fs : List String) (id : Int) (h0 : 0 ≤ id) :
    (((indexFiles fs).length : Int) ≤ id →
      streamView fsys mime musicDir fs id = StreamOutcome.notFound) ∧
    (∀ e : indexedFile, (indexFiles fs).get? id.toNat = some e →
      ∀ bytes : List Nat, fsys (join musicDir e.Name) = some bytes →
        streamView fsys mime musicDir fs id =
          StreamOutcome.content (join musicDir e.Name) bytes
            (mime (ext (join musicDir e.Name)))) := by
  constructor
  · intro h
    simp [streamView, h]
  · intro e he bytes hb
    obtain ⟨hl, _⟩ := List.get?_eq_some.mp he
    have hlt : id < ((indexFiles fs).length : Int) := by omega
    have hnle : ¬ (((indexFiles fs).length : Int) ≤ id) := not_le.mpr hlt
    have hneg : ¬ (id < 0) := not_lt.mpr h0
    simp only [streamView, if_neg hnle, if_neg hneg, he, hb]

/-- C9 witness: a concrete one-file listing streamed end to end. -/
theorem streamView_resolves_witness :
    streamView (fun p => if p = "/m/a.mp3" then some [1, 2] else none) (fun e => e)
      "/m" ["a.mp3"] 0 = StreamOutcome.content "/m/a.mp3" [1, 2] ".mp3" := by
  have h := (streamView_resolves (fun p => if p = "/m/a.mp3" then some [1, 2] else none)
    (fun e => e) "/m" ["a.mp3"] 0 (by decide)).2 ⟨0, "a.mp3", false⟩ (by decide)
    [1, 2] (by decide)
  rw [h]
  decide

/-! ### Claim C10: negative ids are unguarded -/

/-- C10: the id bounds checks only guard the upper bound; a negative id
against a non-empty index drives `filterFiles` into a negative slice
start and `stream` into an out-of-bounds index access (both Go
panics), not into the not-found path. -/
theorem negative_id_unguarded (files : List indexedFile) (id : Int)
    (hneg : id < 0) (hne : files ≠ []) :
    filterFiles files id = none ∧
    ∀ (fsys : String → Option (List Nat)) (mime : String → String) (musicDir : String)
      (fs : List String), indexFiles fs ≠ [] →
        streamView fsys mime musicDir fs id = StreamOutcome.outOfBounds ∧
        StreamOutcome.outOfBounds ≠ StreamOutcome.notFound := by
  have hlen : 0 < files.length := List.length_pos.mpr hne
  constructor
  · have h1 : ¬ ((files.length : Int) ≤ id) := by omega
    simp [filterFiles, h1, hneg]
  · intro fsys mime musicDir fs hfs
    have hlen2 : 0 < (indexFiles fs).length := List.length_pos.mpr hfs
    have h1 : ¬ (((indexFiles fs).length : Int) ≤ id) := by omega
    constructor
    · simp [streamView, h1, hneg]
    · decide

/-- C10 witness: the unguarded behaviour at a concrete negative id. -/
theorem negative_id_unguarded_witness :
    filterFiles [⟨0, "foo", true⟩] (-1) = none ∧
    streamView (fun _ => none) (fun _ => "") "/m" ["a.mp3"] (-1) =
      StreamOutcome.outOfBounds := by
  have h := negative_id_unguarded [⟨0, "foo", true⟩] (-1) (by decide) (by decide)
  exact ⟨h.1, (h.2 (fun _ => none) (fun _ => "") "/m" ["a.mp3"] (by decide)).1⟩

end Mpdsub

namespace Mpdsub

/-! ### Lemmas about the metadata tagger -/

/-- If the first tagging pass fails, the error is the database error of
some file entry of the input. -/
theorem tagPass1_error (db : String → Except String (List (String × String))) :
    ∀ (files : List indexedFile) (cache : String → Option metadataFile) (e : String),
      tagPass1 db files cache = .error e →
      ∃ f ∈ files, f.Dir = false ∧ db f.Name = .error e := by
  intro files
  induction files with
  | nil =>
    intro cache e h
    simp [tagPass1] at h
  | cons f rest ih =>
    intro cache e h
    by_cases hd : f.Dir
    · simp only [tagPass1, if_pos hd] at h
      cases hrec : tagPass1 db rest cache with
      | error e2 =>
        simp only [hrec, Except.error.injEq] at h
        subst h
        obtain ⟨g, hg, hgd, hge⟩ := ih cache e2 hrec
        exact ⟨g, List.mem_cons_of_mem _ hg, hgd, hge⟩
      | ok pr =>
        obtain ⟨l2, c2⟩ := pr
        simp only [hrec] at h
        exact Except.noConfusion h
    · simp only [tagPass1, if_neg hd] at h
      cases hdb : db f.Name with
      | error e2 =>
        simp only [hdb, Except.error.injEq] at h
        subst h
        exact ⟨f, List.mem_cons_self _ _, by simpa using hd, hdb⟩
      | ok attrs =>
        simp only [hdb] at h
        cases hrec : tagPass1 db rest
            (fun k => if k = dir f.Name then some (fileMeta attrs f) else cache k) with
        | error e2 =>
          simp only [hrec, Except.error.injEq] at h
          subst h
          obtain ⟨g, hg, hgd, hge⟩ := ih _ e2 hrec
          exact ⟨g, List.mem_cons_of_mem _ hg, hgd, hge⟩
        | ok pr =>
          obtain ⟨l2, c2⟩ := pr
          simp only [hrec] at h
          exact Except.noConfusion h

/-- If every file entry's lookup succeeds, the first tagging pass
succeeds. -/
theorem tagPass1_ok_of_lookups (db : String → Except String (List (String × String))) :
    ∀ (files : List indexedFile) (cache : String → Option metadataFile),
      (∀ f ∈ files, f.Dir = false → ∃ a, db f.Name = .ok a) →
      ∃ r, tagPass1 db files cache = .ok r := by
  intro files
  induction files with
  | nil =>
    intro cache _
    exact ⟨([], cache), rfl⟩
  | cons f rest ih =>
    intro cache hall
    by_cases hd : f.Dir
    · obtain ⟨⟨l, c⟩, hr⟩ := ih cache (fun g hg => hall g (List.mem_cons_of_mem _ hg))
      refine ⟨(⟨f, "", "", base f.Name⟩ :: l, c), ?_⟩
      simp only [tagPass1, if_pos hd, hr]
    · obtain ⟨attrs, hdb⟩ := hall f (List.mem_cons_self _ _) (by simpa using hd)
      obtain ⟨⟨l, c⟩, hr⟩ :=
        ih (fun k => if k = dir f.Name then some (fileMeta attrs f) else cache k)
          (fun g hg => hall g (List.mem_cons_of_mem _ hg))
      refine ⟨(fileMeta attrs f :: l, c), ?_⟩
      simp only [tagPass1, if_neg hd, hdb, hr]

/-- Per-entry description of a successful first pass: lengths agree,
directory entries get the default title, file entries get the metadata
read from the database. -/
theorem tagPass1_get (db : String → Except String (List (String × String))) :
    ∀ (files : List indexedFile) (cache : String → Option metadataFile)
      (l : List metadataFile) (c : String → Option metadataFile),
      tagPass1 db files cache = .ok (l, c) →
      l.length = files.length ∧
      ∀ i (hi : i < files.length) (hl : i < l.length),
        (files[i].Dir = true → l[i] = ⟨files[i], "", "", base files[i].Name⟩) ∧
        (files[i].Dir = false → ∃ attrs, db files[i].Name = .ok attrs ∧
          l[i] = fileMeta attrs files[i]) := by
  intro files
  induction files with
  | nil =>
    intro cache l c h
    simp only [tagPass1, Except.ok.injEq, Prod.mk.injEq] at h
    obtain ⟨h1, _⟩ := h
    subst h1
    exact ⟨rfl, fun i hi => absurd hi (by simp)⟩
  | cons f rest ih =>
    intro cache l c h
    by_cases hd : f.Dir
    · simp only [tagPass1, if_pos hd] at h
      cases hrec : tagPass1 db rest cache with
      | error e2 =>
        simp only [hrec] at h
        exact Except.noConfusion h
      | ok pr =>
        obtain ⟨l2, c2⟩ := pr
        simp only [hrec, Except.ok.injEq, Prod.mk.injEq] at h
        obtain ⟨h1, h2⟩ := h
        subst h1
        subst h2
        obtain ⟨hlen, hget⟩ := ih cache l2 c2 hrec
        refine ⟨by simp [hlen], ?_⟩
        intro i hi hl
        cases i with
        | zero =>
          refine ⟨fun _ => by simp, fun hcon => ?_⟩
          simp only [List.getElem_cons_zero] at hcon
          rw [hcon] at hd
          simp at hd
        | succ j =>
          have hj : j < rest.length := by simpa using hi
          have hjl : j < l2.length := by simpa using hl
          obtain ⟨h1, h2⟩ := hget j hj hjl
          simpa using ⟨h1, h2⟩
    · simp only [tagPass1, if_neg hd] at h
      cases hdb : db f.Name with
      | error e2 =>
        simp only [hdb] at h
        exact Except.noConfusion h
      | ok attrs =>
        simp only [hdb] at h
        cases hrec : tagPass1 db rest
            (fun k => if k = dir f.Name then some (fileMeta attrs f) else cache k) with
        | error e2 =>
          simp only [hrec] at h
          exact Except.noConfusion h
        | ok pr =>
          obtain ⟨l2, c2⟩ := pr
          simp only [hrec, Except.ok.injEq, Prod.mk.injEq] at h
          obtain ⟨h1, h2⟩ := h
          subst h1
          subst h2
          obtain ⟨hlen, hget⟩ := ih _ l2 c2 hrec
          refine ⟨by simp [hlen], ?_⟩
          intro i hi hl
          cases i with
          | zero =>
            refine ⟨fun hcon => ?_, fun _ => ⟨attrs, by simpa using hdb, by simp⟩⟩
            simp only [List.getElem_cons_zero] at hcon
            rw [hcon] at hd
            simp at hd
          | succ j =>
            have hj : j < rest.length := by simpa using hi
            have hjl : j < l2.length := by simpa using hl
            obtain ⟨h1, h2⟩ := hget j hj hjl
            simpa using ⟨h1, h2⟩

end Mpdsub

namespace Mpdsub

/-- Characterization of the parent-directory cache after a successful
first pass: the entry for a key `d` is the metadata of the last file
entry whose immediate parent directory is `d` (later files overwrite
earlier ones), and keys with no matching file keep their incoming
cache value. -/
theorem tagPass1_cache (db : String → Except String (List (String × String))) :
    ∀ (files : List indexedFile) (cache : String → Option metadataFile)
      (l : List metadataFile) (c : String → Option metadataFile),
      tagPass1 db files cache = .ok (l, c) → ∀ d : String,
      (files.reverse.find? (fun x => !x.Dir && (dir x.Name == d)) = none → c d = cache d) ∧
      (∀ g, files.reverse.find? (fun x => !x.Dir && (dir x.Name == d)) = some g →
        ∃ attrs, db g.Name = .ok attrs ∧ c d = some (fileMeta attrs g)) := by
  intro files
  induction files with
  | nil =>
    intro cache l c h d
    simp only [tagPass1, Except.ok.injEq, Prod.mk.injEq] at h
    obtain ⟨_, h2⟩ := h
    subst h2
    exact ⟨fun _ => rfl, fun g hg => by simp at hg⟩
  | cons f rest ih =>
    intro cache l c h d
    have hsplit : (f :: rest).reverse.find? (fun x => !x.Dir && (dir x.Name == d)) =
        ((rest.reverse.find? (fun x => !x.Dir && (dir x.Name == d))).or
          ([f].find? (fun x => !x.Dir && (dir x.Name == d)))) := by
      rw [List.reverse_cons, List.find?_append]
    by_cases hd : f.Dir
    · simp only [tagPass1, if_pos hd] at h
      cases hrec : tagPass1 db rest cache with
      | error e2 =>
        simp only [hrec] at h
        exact Except.noConfusion h
      | ok pr =>
        obtain ⟨l2, c2⟩ := pr
        simp only [hrec, Except.ok.injEq, Prod.mk.injEq] at h
        obtain ⟨h1, h2⟩ := h
        subst h1
        subst h2
        have hf : (fun x => !x.Dir && (dir x.Name == d)) f = false := by
          simp [hd]
        have hfnone : [f].find? (fun x => !x.Dir && (dir x.Name == d)) = none := by
          simp [List.find?, hf]
        constructor
        · intro hnone
          rw [hsplit, hfnone, Option.or_none] at hnone
          exact (ih cache l2 c2 hrec d).1 hnone
        · intro g hg
          rw [hsplit, hfnone, Option.or_none] at hg
          exact (ih cache l2 c2 hrec d).2 g hg
    · simp only [tagPass1, if_neg hd] at h
      cases hdb : db f.Name with
      | error e2 =>
        simp only [hdb] at h
        exact Except.noConfusion h
      | ok attrs =>
        simp only [hdb] at h
        cases hrec : tagPass1 db rest
            (fun k => if k = dir f.Name then some (fileMeta attrs f) else cache k) with
        | error e2 =>
          simp only [hrec] at h
          exact Except.noConfusion h
        | ok pr =>
          obtain ⟨l2, c2⟩ := pr
          simp only [hrec, Except.ok.injEq, Prod.mk.injEq] at h
          obtain ⟨h1, h2⟩ := h
          subst h1
          subst h2
          have hd2 : f.Dir = false := by simpa using hd
          have ihd := ih _ l2 c2 hrec d
          by_cases hq : dir f.Name = d
          · have hsingle : [f].find? (fun x => !x.Dir && (dir x.Name == d)) = some f := by
              simp [List.find?_cons, hd2, hq]
            constructor
            · intro hnone
              rw [hsplit, hsingle] at hnone
              cases hr2 : rest.reverse.find? (fun x => !x.Dir && (dir x.Name == d)) with
              | none => rw [hr2] at hnone; simp at hnone
              | some g2 => rw [hr2] at hnone; simp at hnone
            · intro g hg
              rw [hsplit, hsingle] at hg
              cases hr2 : rest.reverse.find? (fun x => !x.Dir && (dir x.Name == d)) with
              | none =>
                rw [hr2, Option.none_or] at hg
                cases hg
                refine ⟨attrs, hdb, ?_⟩
                rw [ihd.1 hr2, if_pos hq.symm]
              | some g2 =>
                rw [hr2] at hg
                have hg3 : g2 = g := Option.some.inj hg
                subst hg3
                exact ihd.2 g2 hr2
          · have hsingle : [f].find? (fun x => !x.Dir && (dir x.Name == d)) = none := by
              simp [List.find?_cons, hd2, hq]
            have hne : ¬ (d = dir f.Name) := fun hcon => hq hcon.symm
            constructor
            · intro hnone
              rw [hsplit, hsingle, Option.or_none] at hnone
              rw [ihd.1 hnone, if_neg hne]
            · intro g hg
              rw [hsplit, hsingle, Option.or_none] at hg
              exact ihd.2 g hg

end Mpdsub

namespace Mpdsub

/-! ### Claim C8: tagging error handling -/

/-- C8: tagging fails exactly when some file entry's attribute lookup
fails; on failure the surfaced error is a database error of one of the
file entries (no partial output is returned, the result being a single
`Except` value); on success the output has an entry for every input
entry. -/
theorem tagFiles_error_handling (db : String → Except String (List (String × String)))
    (files : List indexedFile) :
    (∀ e, tagFiles db files = .error e → ∃ f ∈ files, f.Dir = false ∧ db f.Name = .error e) ∧
    ((∃ out, tagFiles db files = .ok out) ↔
      (∀ f ∈ files, f.Dir = false → ∃ a, db f.Name = .ok a)) ∧
    (∀ out, tagFiles db files = .ok out → out.length = files.length) := by
  have herr : ∀ e, tagFiles db files = .error e →
      tagPass1 db files (fun _ => none) = .error e := by
    intro e h
    cases hp : tagPass1 db files (fun _ => none) with
    | error e2 =>
      simp only [tagFiles, hp, Except.error.injEq] at h
      subst h
      rfl
    | ok pr =>
      obtain ⟨l, c⟩ := pr
      simp only [tagFiles, hp] at h
      exact Except.noConfusion h
  refine ⟨?_, ⟨?_, ?_⟩, ?_⟩
  · intro e h
    exact tagPass1_error db files _ e (herr e h)
  · rintro ⟨out, hout⟩ f hf hfd
    cases hp : tagPass1 db files (fun _ => none) with
    | error e2 =>
      have h2 : tagFiles db files = .error e2 := by simp only [tagFiles, hp]
      exact Except.noConfusion (hout.symm.trans h2)
    | ok pr =>
      obtain ⟨l, c⟩ := pr
      obtain ⟨hlen, hget⟩ := tagPass1_get db files _ l c hp
      obtain ⟨i, hi, hfe⟩ := List.mem_iff_getElem.mp hf
      have hl2 : i < l.length := by rw [hlen]; exact hi
      obtain ⟨attrs, ha, _⟩ := (hget i hi hl2).2 (by rw [hfe]; exact hfd)
      exact ⟨attrs, hfe ▸ ha⟩
  · intro hall
    obtain ⟨⟨l, c⟩, hp⟩ := tagPass1_ok_of_lookups db files (fun _ => none) hall
    exact ⟨l.map (tagFix c), by simp only [tagFiles, hp]⟩
  · intro out hout
    cases hp : tagPass1 db files (fun _ => none) with
    | error e2 =>
      have h2 : tagFiles db files = .error e2 := by simp only [tagFiles, hp]
      exact Except.noConfusion (hout.symm.trans h2)
    | ok pr =>
      obtain ⟨l, c⟩ := pr
      obtain ⟨hlen, _⟩ := tagPass1_get db files _ l c hp
      have h2 : tagFiles db files = .ok (l.map (tagFix c)) := by simp only [tagFiles, hp]
      have h3 : out = l.map (tagFix c) := Except.ok.inj (hout.symm.trans h2)
      rw [h3, List.length_map, hlen]

/-- C8 witness: a successful concrete run with one output entry per
input entry, obtained from the success characterization. -/
theorem tagFiles_error_handling_witness :
    ∃ out, tagFiles exDb [⟨1, "foo/a.mp3", false⟩] = Except.ok out ∧ out.length = 1 := by
  have h := tagFiles_error_handling exDb [⟨1, "foo/a.mp3", false⟩]
  have hside : ∀ f ∈ [(⟨1, "foo/a.mp3", false⟩ : indexedFile)], f.Dir = false →
      ∃ a, exDb f.Name = Except.ok a := by
    intro f hf _
    have hfe : f = ⟨1, "foo/a.mp3", false⟩ := by simpa using hf
    subst hfe
    exact ⟨[("ARTIST", "x"), ("ALBUM", "y"), ("TITLE", "z")], by decide⟩
  obtain ⟨out, hout⟩ := h.2.1.mpr hside
  exact ⟨out, hout, h.2.2 out hout⟩

/-! ### Claim C4: directory metadata inheritance -/

/-- C4: in the second tagging pass, every non-top-level directory entry
whose path has a matching file in the parent cache gets its artist and
album from that file's metadata and its title from that metadata's
album value; the matching file is exactly the last file entry of the
input whose immediate parent directory is that path (found here by
searching the reversed input), and a directory path with no matching
file keeps its first-pass default entry. -/
theorem tagFiles_directory_inheritance (db : String → Except String (List (String × String)))
    (files : List indexedFile) (out : List metadataFile)
    (h : tagFiles db files = .ok out) :
    ∀ i (hi : i < files.length) (ho : i < out.length),
      files[i].Dir = true → containsSep files[i].Name = true →
      (∀ g, files.reverse.find? (fun x => !x.Dir && (dir x.Name == files[i].Name)) = some g →
        ∀ attrs, db g.Name = .ok attrs →
          out[i].Artist = attrsGet attrs "ARTIST" ∧
          out[i].Album = attrsGet attrs "ALBUM" ∧
          out[i].Title = attrsGet attrs "ALBUM") ∧
      (files.reverse.find? (fun x => !x.Dir && (dir x.Name == files[i].Name)) = none →
        out[i] = ⟨files[i], "", "", base files[i].Name⟩) := by
  cases hp : tagPass1 db files (fun _ => none) with
  | error e2 =>
    have h2 : tagFiles db files = .error e2 := by simp only [tagFiles, hp]
    exact absurd (h.symm.trans h2) (fun hc => Except.noConfusion hc)
  | ok pr =>
    obtain ⟨l, c⟩ := pr
    have hout : out = l.map (tagFix c) := by
      have h2 : tagFiles db files = .ok (l.map (tagFix c)) := by simp only [tagFiles, hp]
      exact Except.ok.inj (h.symm.trans h2)
    obtain ⟨hlen, hget⟩ := tagPass1_get db files _ l c hp
    intro i hi ho hdir hsep
    have hl2 : i < l.length := by rw [hlen]; exact hi
    have hgeti : l[i] = ⟨files[i], "", "", base files[i].Name⟩ := (hget i hi hl2).1 hdir
    have houti : out[i] = tagFix c l[i] := by
      subst hout
      simp
    have hcache := tagPass1_cache db files _ l c hp files[i].Name
    constructor
    · intro g hgf attrs hattrs
      obtain ⟨attrs2, hdb2, hcd⟩ := hcache.2 g hgf
      have haeq : attrs2 = attrs := Except.ok.inj (hdb2.symm.trans hattrs)
      subst haeq
      rw [houti, hgeti]
      simp [tagFix, hsep, hdir, hcd, fileMeta]
    · intro hnone
      have hcd : c files[i].Name = none := hcache.1 hnone
      rw [houti, hgeti]
      simp [tagFix, hsep, hdir, hcd]

/-- C4 witness: the inherited metadata of the nested directory `a/b`
in a concrete run. -/
theorem tagFiles_directory_inheritance_witness :
    ∃ out, tagFiles exDb2 exFiles2 = Except.ok out ∧
      ∀ ho : 1 < out.length,
        out[1].Artist = "ar" ∧ out[1].Album = "al" ∧ out[1].Title = "al" := by
  have hout : tagFiles exDb2 exFiles2 = Except.ok
      [⟨⟨0, "a", true⟩, "", "", "a"⟩, ⟨⟨1, "a/b", true⟩, "ar", "al", "al"⟩,
       ⟨⟨2, "a/b/c.mp3", false⟩, "ar", "al", "ti"⟩] := by decide
  refine ⟨_, hout, ?_⟩
  intro ho
  have h := tagFiles_directory_inheritance exDb2 exFiles2 _ hout 1 (by decide) ho
    (by decide) (by decide)
  exact h.1 ⟨2, "a/b/c.mp3", false⟩ (by decide)
    [("ARTIST", "ar"), ("ALBUM", "al"), ("TITLE", "ti")] (by decide)

end Mpdsub

namespace Mpdsub

/-! ### Lemmas about the path primitives and ancestor chains -/

/-- The clean loop never produces an empty segment. -/
theorem cleanLoop_ne_empty (rooted : Bool) :
    ∀ (segs stack : List String), (∀ x ∈ stack, x ≠ "") →
      ∀ x ∈ cleanLoop rooted stack segs, x ≠ "" := by
  intro segs
  induction segs with
  | nil =>
    intro stack hstack x hx
    rw [cleanLoop] at hx
    exact hstack x (List.mem_reverse.mp hx)
  | cons seg rest ih =>
    intro stack hstack x hx
    by_cases h1 : seg = "" ∨ seg = "."
    · simp only [cleanLoop, if_pos h1] at hx
      exact ih stack hstack x hx
    · by_cases h2 : seg = ".."
      · cases stack with
        | nil =>
          by_cases h3 : rooted
          · simp only [cleanLoop, if_neg h1, if_pos h2, if_pos h3] at hx
            exact ih [] (by simp) x hx
          · simp only [cleanLoop, if_neg h1, if_pos h2, if_neg h3] at hx
            refine ih [".."] ?_ x hx
            intro y hy
            simp only [List.mem_singleton] at hy
            subst hy
            decide
        | cons top pop =>
          by_cases h3 : top = ".."
          · simp only [cleanLoop, if_neg h1, if_pos h2, if_pos h3] at hx
            refine ih (".." :: top :: pop) ?_ x hx
            intro y hy
            rcases List.mem_cons.mp hy with h | h
            · subst h; decide
            · exact hstack y h
          · simp only [cleanLoop, if_neg h1, if_pos h2, if_neg h3] at hx
            exact ih pop (fun y hy => hstack y (List.mem_cons_of_mem _ hy)) x hx
      · simp only [cleanLoop, if_neg h1, if_neg h2] at hx
        refine ih (seg :: stack) ?_ x hx
        intro y hy
        rcases List.mem_cons.mp hy with h | h
        · subst h
          exact (not_or.mp h1).1
        · exact hstack y h

/-- Joining a non-empty list of non-empty segments is non-empty. -/
theorem joinSep_ne_empty : ∀ (l : List String), l ≠ [] → (∀ x ∈ l, x ≠ "") →
    joinSep l ≠ "" := by
  intro l
  match l with
  | [] => intro h _; exact absurd rfl h
  | [x] =>
    intro _ hall
    simpa [joinSep] using hall x (by simp)
  | x :: y :: rest =>
    intro _ _
    simp only [joinSep]
    intro h
    have hlen := congrArg String.length h
    rw [String.length_append, String.length_append] at hlen
    have h1 : ("/" : String).length = 1 := rfl
    have h0 : ("" : String).length = 0 := rfl
    omega

/-- `clean` never returns the empty string. -/
theorem clean_ne_empty (path : String) : clean path ≠ "" := by
  simp only [clean]
  split
  · decide
  · split
    · intro h
      have hlen := congrArg String.length h
      rw [String.length_append] at hlen
      have h1 : ("/" : String).length = 1 := rfl
      have h0 : ("" : String).length = 0 := rfl
      omega
    · split
      · decide
      · rename_i hroot hne
        refine joinSep_ne_empty _ hne ?_
        exact cleanLoop_ne_empty _ _ [] (by simp)

/-- `dir` never returns the empty string. -/
theorem dir_ne_empty (s : String) : dir s ≠ "" := clean_ne_empty _

/-- All entries of an ancestor walk of a non-empty start are
non-empty. -/
theorem dirIter_ne_empty : ∀ (n : Nat) (d : String), d ≠ "" →
    ∀ x ∈ dirIter n d, x ≠ "" := by
  intro n
  induction n with
  | zero => intro d _ x hx; simp [dirIter] at hx
  | succ n ih =>
    intro d hd x hx
    by_cases hdot : d = "."
    · simp [dirIter, hdot] at hx
    · simp only [dirIter, if_neg hdot] at hx
      rcases List.mem_cons.mp hx with h | h
      · subst h; exact hd
      · exact ih (dir d) (dir_ne_empty d) x h

/-- All entries of an ancestor walk differ from `.`. -/
theorem dirIter_ne_dot : ∀ (n : Nat) (d : String), ∀ x ∈ dirIter n d, x ≠ "." := by
  intro n
  induction n with
  | zero => intro d x hx; simp [dirIter] at hx
  | succ n ih =>
    intro d x hx
    by_cases hdot : d = "."
    · simp [dirIter, hdot] at hx
    · simp only [dirIter, if_neg hdot] at hx
      rcases List.mem_cons.mp hx with h | h
      · subst h; exact hdot
      · exact ih (dir d) x h

/-- The walk from `.` is empty. -/
theorem dirIter_dot : ∀ n, dirIter n "." = [] := by
  intro n
  cases n <;> simp [dirIter]

/-- The walk from `.` is complete at any fuel. -/
theorem chainDone_dot : ∀ n, chainDone n "." = true := by
  intro n
  cases n <;> simp [chainDone]

/-- The parent directory of `.` is `.` itself. -/
theorem dir_dot : dir "." = "." := by decide

/-- Completion of the walk is monotone in the fuel. -/
theorem chainDone_mono : ∀ (n : Nat) (d : String), chainDone n d = true →
    ∀ m, n ≤ m → chainDone m d = true := by
  intro n
  induction n with
  | zero =>
    intro d h m _
    simp only [chainDone, beq_iff_eq] at h
    subst h
    exact chainDone_dot m
  | succ n ih =>
    intro d h m hm
    by_cases hdot : d = "."
    · subst hdot; exact chainDone_dot m
    · simp only [chainDone, Bool.or_eq_true, beq_iff_eq, hdot, false_or] at h
      cases m with
      | zero => omega
      | succ m2 =>
        simp only [chainDone, Bool.or_eq_true, beq_iff_eq, hdot, false_or]
        exact ih (dir d) h m2 (by omega)

/-- Two complete walks from the same start agree regardless of fuel. -/
theorem dirIter_fuel_irrel : ∀ (n m : Nat) (d : String), chainDone n d = true →
    chainDone m d = true → dirIter n d = dirIter m d := by
  intro n
  induction n with
  | zero =>
    intro m d h _
    simp only [chainDone, beq_iff_eq] at h
    subst h
    rw [dirIter_dot, dirIter_dot]
  | succ n ih =>
    intro m d h1 h2
    by_cases hdot : d = "."
    · subst hdot; rw [dirIter_dot, dirIter_dot]
    · simp only [chainDone, Bool.or_eq_true, beq_iff_eq, hdot, false_or] at h1
      cases m with
      | zero =>
        simp only [chainDone, beq_iff_eq] at h2
        exact absurd h2 hdot
      | succ m2 =>
        simp only [chainDone, Bool.or_eq_true, beq_iff_eq, hdot, false_or] at h2
        simp only [dirIter, if_neg hdot]
        rw [ih m2 (dir d) h1 h2]

/-- Decomposing a walk at an element: the tail after the element is
the walk of that element, with completion inherited. -/
theorem dirIter_suffix : ∀ (l1 : List String) (n : Nat) (d x : String) (l2 : List String),
    dirIter n d = l1 ++ x :: l2 →
    ∃ r, r < n ∧ l2 = dirIter r (dir x) ∧
      (chainDone n d = true → chainDone r (dir x) = true) := by
  intro l1
  induction l1 with
  | nil =>
    intro n d x l2 h
    cases n with
    | zero => simp [dirIter] at h
    | succ n2 =>
      by_cases hdot : d = "."
      · rw [hdot, dirIter_dot] at h; exact absurd h (by simp)
      · simp only [dirIter, if_neg hdot, List.nil_append] at h
        obtain ⟨h1, h2⟩ := List.cons.inj h
        subst h1
        refine ⟨n2, by omega, h2.symm, ?_⟩
        intro hc
        simpa only [chainDone, Bool.or_eq_true, beq_iff_eq, hdot, false_or] using hc
  | cons a l1x ih =>
    intro n d x l2 h
    cases n with
    | zero => simp [dirIter] at h
    | succ n2 =>
      by_cases hdot : d = "."
      · rw [hdot, dirIter_dot] at h; exact absurd h (by simp)
      · simp only [dirIter, if_neg hdot, List.cons_append] at h
        obtain ⟨h1, h2⟩ := List.cons.inj h
        obtain ⟨r, hr1, hr2, hr3⟩ := ih n2 (dir d) x l2 h2
        refine ⟨r, by omega, hr2, ?_⟩
        intro hc
        refine hr3 ?_
        simpa only [chainDone, Bool.or_eq_true, beq_iff_eq, hdot, false_or] using hc

/-- Each element of a walk is an iterate of `dir`. -/
theorem mem_dirIter_iterate : ∀ (n : Nat) (d x : String), x ∈ dirIter n d →
    ∃ m, m < n ∧ x = dir^[m] d := by
  intro n
  induction n with
  | zero => intro d x hx; simp [dirIter] at hx
  | succ n ih =>
    intro d x hx
    by_cases hdot : d = "."
    · simp [dirIter, hdot] at hx
    · simp only [dirIter, if_neg hdot] at hx
      rcases List.mem_cons.mp hx with h | h
      · exact ⟨0, by omega, by simpa using h⟩
      · obtain ⟨m, hm, he⟩ := ih (dir d) x h
        exact ⟨m + 1, by omega, by rw [Function.iterate_succ_apply]; exact he⟩

/-- A complete walk reaches `.` as an iterate of `dir`. -/
theorem chainDone_iterate : ∀ (n : Nat) (d : String), chainDone n d = true →
    ∃ m, m ≤ n ∧ dir^[m] d = "." := by
  intro n
  induction n with
  | zero =>
    intro d h
    simp only [chainDone, beq_iff_eq] at h
    exact ⟨0, by omega, by simpa using h⟩
  | succ n ih =>
    intro d h
    by_cases hdot : d = "."
    · exact ⟨0, by omega, by simpa using hdot⟩
    · simp only [chainDone, Bool.or_eq_true, beq_iff_eq, hdot, false_or] at h
      obtain ⟨m, hm, he⟩ := ih (dir d) h
      exact ⟨m + 1, by omega, by rw [Function.iterate_succ_apply]; exact he⟩

/-- Iterating `dir` from `.` stays at `.`. -/
theorem iterate_dir_dot : ∀ t, dir^[t] "." = "." := by
  intro t
  induction t with
  | zero => simp
  | succ t ih => rw [Function.iterate_succ_apply, dir_dot]; exact ih

/-- A start whose walk completes cannot lie on a `dir` cycle. -/
theorem dir_no_cycle : ∀ (n : Nat) (d : String), chainDone n d = true → d ≠ "." →
    ∀ k, 0 < k → dir^[k] d ≠ d := by
  intro n d hdone hd k hk hcycle
  obtain ⟨m, _, hm⟩ := chainDone_iterate n d hdone
  have hm0 : m ≠ 0 := by
    intro h0
    rw [h0] at hm
    exact hd (by simpa using hm)
  have hcyc : ∀ q, dir^[q * k] d = d := by
    intro q
    induction q with
    | zero => simp
    | succ q ihq =>
      have hqk : (q + 1) * k = k + q * k := by ring
      rw [hqk, Function.iterate_add_apply, ihq, hcycle]
  have hle : m ≤ m * k := Nat.le_mul_of_pos_right m hk
  have hdot2 : dir^[m * k] d = "." := by
    have hsum : m * k = (m * k - m) + m := by omega
    rw [hsum, Function.iterate_add_apply, hm, iterate_dir_dot]
  rw [hcyc m] at hdot2
  exact hd hdot2

/-- A start whose walk completes never reappears in its own walk. -/
theorem not_mem_own_chain : ∀ (nn n : Nat) (d : String), chainDone n d = true →
    d ∉ dirIter nn (dir d) := by
  intro nn n d hdone hmem
  by_cases hd : d = "."
  · rw [hd, dir_dot, dirIter_dot] at hmem
    exact absurd hmem (List.not_mem_nil _)
  · obtain ⟨m, _, hm⟩ := mem_dirIter_iterate nn (dir d) d hmem
    have hit : dir^[m + 1] d = d := by
      rw [Function.iterate_succ_apply]
      exact hm.symm
    exact dir_no_cycle n d hdone hd (m + 1) (Nat.succ_pos m) hit

/-- Two distinct entries cannot each lie on the other's walk when one
of them has a complete walk. -/
theorem cross_chain_cycle : ∀ (n a b : Nat) (d x : String), chainDone n d = true →
    d ≠ "." → x ∈ dirIter a (dir d) → d ∈ dirIter b (dir x) → False := by
  intro n a b d x hdone hd hx hdx
  obtain ⟨p, _, hp⟩ := mem_dirIter_iterate a (dir d) x hx
  obtain ⟨q, _, hq⟩ := mem_dirIter_iterate b (dir x) d hdx
  have hx2 : x = dir^[p + 1] d := by rw [Function.iterate_succ_apply]; exact hp
  have hd2 : d = dir^[q + 1] x := by rw [Function.iterate_succ_apply]; exact hq
  have hcy : dir^[(q + 1) + (p + 1)] d = d := by
    rw [Function.iterate_add_apply, ← hx2, ← hd2]
  exact dir_no_cycle n d hdone hd _ (by omega) hcy

end Mpdsub

namespace Mpdsub

/-! ### Lemmas about the ancestor walk of the index builder -/

/-- The walk extends `seen` by exactly the reversed pushed list. -/
theorem walkDirs_seen : ∀ (fuel : Nat) (d : String) (seen : List String),
    (walkDirs fuel d seen).1 = (walkDirs fuel d seen).2.reverse ++ seen := by
  intro fuel
  induction fuel with
  | zero => intro d seen; simp [walkDirs]
  | succ fuel ih =>
    intro d seen
    by_cases hdot : d = "."
    · simp [walkDirs, hdot]
    · by_cases hmem : d ∈ seen
      · simp only [walkDirs, if_neg hdot, if_pos hmem]
        exact ih (dir d) seen
      · simp only [walkDirs, if_neg hdot, if_neg hmem, List.reverse_cons, List.append_assoc]
        rw [ih (dir d) (d :: seen)]
        simp

/-- Every pushed directory was visited and was not already seen. -/
theorem walkDirs_pushed_mem : ∀ (fuel : Nat) (d : String) (seen : List String),
    ∀ x ∈ (walkDirs fuel d seen).2, x ∈ dirIter fuel d ∧ x ∉ seen := by
  intro fuel
  induction fuel with
  | zero => intro d seen x hx; simp [walkDirs] at hx
  | succ fuel ih =>
    intro d seen x hx
    by_cases hdot : d = "."
    · simp [walkDirs, hdot] at hx
    · by_cases hmem : d ∈ seen
      · simp only [walkDirs, if_neg hdot, if_pos hmem] at hx
        obtain ⟨h1, h2⟩ := ih (dir d) seen x hx
        exact ⟨by simp only [dirIter, if_neg hdot]; exact List.mem_cons_of_mem _ h1, h2⟩
      · simp only [walkDirs, if_neg hdot, if_neg hmem] at hx
        rcases List.mem_cons.mp hx with h | h
        · subst h
          exact ⟨by simp only [dirIter, if_neg hdot]; exact List.mem_cons_self _ _, hmem⟩
        · obtain ⟨h1, h2⟩ := ih (dir d) (d :: seen) x h
          refine ⟨by simp only [dirIter, if_neg hdot]; exact List.mem_cons_of_mem _ h1, ?_⟩
          intro hc
          exact h2 (List.mem_cons_of_mem _ hc)

/-- The pushed list is a sublist of the visited sequence. -/
theorem walkDirs_pushed_sublist : ∀ (fuel : Nat) (d : String) (seen : List String),
    (walkDirs fuel d seen).2.Sublist (dirIter fuel d) := by
  intro fuel
  induction fuel with
  | zero => intro d seen; simp [walkDirs, dirIter]
  | succ fuel ih =>
    intro d seen
    by_cases hdot : d = "."
    · simp [walkDirs, hdot]
    · by_cases hmem : d ∈ seen
      · simp only [walkDirs, if_neg hdot, if_pos hmem, dirIter]
        exact List.Sublist.cons d (ih (dir d) seen)
      · simp only [walkDirs, if_neg hdot, if_neg hmem, dirIter]
        exact List.Sublist.cons₂ d (ih (dir d) (d :: seen))

/-- Every visited directory ends up pushed or already seen. -/
theorem walkDirs_covers : ∀ (fuel : Nat) (d : String) (seen : List String),
    ∀ x ∈ dirIter fuel d, x ∈ (walkDirs fuel d seen).2 ∨ x ∈ seen := by
  intro fuel
  induction fuel with
  | zero => intro d seen x hx; simp [dirIter] at hx
  | succ fuel ih =>
    intro d seen x hx
    by_cases hdot : d = "."
    · simp [dirIter, hdot] at hx
    · simp only [dirIter, if_neg hdot] at hx
      by_cases hmem : d ∈ seen
      · simp only [walkDirs, if_neg hdot, if_pos hmem]
        rcases List.mem_cons.mp hx with h | h
        · subst h; exact Or.inr hmem
        · exact ih (dir d) seen x h
      · simp only [walkDirs, if_neg hdot, if_neg hmem]
        rcases List.mem_cons.mp hx with h | h
        · subst h; exact Or.inl (List.mem_cons_self _ _)
        · rcases ih (dir d) (d :: seen) x h with h2 | h2
          · exact Or.inl (List.mem_cons_of_mem _ h2)
          · rcases List.mem_cons.mp h2 with h3 | h3
            · subst h3; exact Or.inl (List.mem_cons_self _ _)
            · exact Or.inr h3

/-- The pushed list has no duplicates. -/
theorem walkDirs_pushed_nodup : ∀ (fuel : Nat) (d : String) (seen : List String),
    (walkDirs fuel d seen).2.Nodup := by
  intro fuel
  induction fuel with
  | zero => intro d seen; simp [walkDirs]
  | succ fuel ih =>
    intro d seen
    by_cases hdot : d = "."
    · simp [walkDirs, hdot]
    · by_cases hmem : d ∈ seen
      · simp only [walkDirs, if_neg hdot, if_pos hmem]
        exact ih (dir d) seen
      · simp only [walkDirs, if_neg hdot, if_neg hmem, List.nodup_cons]
        refine ⟨?_, ih (dir d) (d :: seen)⟩
        intro hc
        exact (walkDirs_pushed_mem fuel (dir d) (d :: seen) d hc).2 (List.mem_cons_self _ _)

/-! ### Indexing helpers for the three-part append of one index step -/

/-- Reading inside the first part of `a ++ b ++ [x]`. -/
theorem getElem_append3_left {α : Type} {a b : List α} {x : α} {k : Nat}
    (hk : k < a.length) (h : k < (a ++ b ++ [x]).length) :
    (a ++ b ++ [x])[k] = a[k] := by
  have h2 : k < (a ++ b).length := by simp; omega
  calc (a ++ b ++ [x])[k] = (a ++ b)[k] := List.getElem_append_left h2
    _ = a[k] := List.getElem_append_left hk

/-- Reading inside the middle part of `a ++ b ++ [x]`. -/
theorem getElem_append3_mid {α : Type} {a b : List α} {x : α} {t : Nat}
    (ht : t < b.length) (h : a.length + t < (a ++ b ++ [x]).length) :
    (a ++ b ++ [x])[a.length + t] = b[t] := by
  have h2 : a.length + t < (a ++ b).length := by simp; omega
  calc (a ++ b ++ [x])[a.length + t] = (a ++ b)[a.length + t] := List.getElem_append_left h2
    _ = b[a.length + t - a.length] := List.getElem_append_right (by omega)
    _ = b[t] := by congr 1; omega

/-- Reading the final element of `a ++ b ++ [x]`. -/
theorem getElem_append3_last {α : Type} {a b : List α} {x : α}
    (h : a.length + b.length < (a ++ b ++ [x]).length) :
    (a ++ b ++ [x])[a.length + b.length] = x := by
  have h2 : (a ++ b).length ≤ a.length + b.length := by simp
  rw [List.getElem_append_right h2]
  simp

end Mpdsub

namespace Mpdsub

/-! ### The counting invariant of the index builder -/

/-- The emitted stack pops of one index step are exactly the reversed
pushed list (the `""` sentinel is never pushed), so one step has this
closed form. -/
theorem indexStep_eq (seen : List String) (idx : Nat) (out : List indexedFile) (f : String) :
    indexStep (seen, idx, out) f =
      ((walkDirs (f.length + 1) (dir f) seen).1,
       idx + (walkDirs (f.length + 1) (dir f) seen).2.length + 1,
       out ++ ((walkDirs (f.length + 1) (dir f) seen).2.reverse).enum.map
           (fun p => indexedFile.mk (Int.ofNat (idx + p.1)) p.2 true) ++
         [indexedFile.mk (Int.ofNat (idx + (walkDirs (f.length + 1) (dir f) seen).2.length))
           f false]) := by
  have hemit : ((walkDirs (f.length + 1) (dir f) seen).2.reverse).takeWhile (fun d => d ≠ "") =
      (walkDirs (f.length + 1) (dir f) seen).2.reverse := by
    apply List.takeWhile_eq_self_iff.mpr
    intro x hx
    have hx2 := (walkDirs_pushed_mem _ _ _ x (List.mem_reverse.mp hx)).1
    have hne := dirIter_ne_empty _ _ (dir_ne_empty f) x hx2
    simpa using hne
  simp only [indexStep, hemit, List.length_reverse]

/-- A list splits into its matching and non-matching parts. -/
theorem length_filter_split {α : Type} (p : α → Bool) : ∀ (l : List α),
    l.length = (l.filter p).length + (l.filter (fun a => !p a)).length := by
  intro l
  induction l with
  | nil => simp
  | cons a l ih =>
    cases hpa : p a with
    | false =>
      simp [List.filter_cons, hpa, ih]
      omega
    | true =>
      simp [List.filter_cons, hpa, ih]
      omega

/-- One step of the fold preserves the counting invariant. -/
theorem countInv_step (processed : List String) (seen : List String) (idx : Nat)
    (out : List indexedFile) (f : String)
    (h : CountInv processed (seen, idx, out)) :
    CountInv (processed ++ [f]) (indexStep (seen, idx, out) f) := by
  rw [indexStep_eq]
  set w := walkDirs (f.length + 1) (dir f) seen with hw
  set e := w.2.reverse with he
  set A := e.enum.map (fun p => indexedFile.mk (Int.ofNat (idx + p.1)) p.2 true) with hA
  set fe := indexedFile.mk (Int.ofNat (idx + w.2.length)) f false with hfe
  have hel : e.length = w.2.length := List.length_reverse _
  have hAl : A.length = e.length := by simp [hA, List.enum_length]
  have hAget : ∀ t (ht : t < e.length) (ht2 : t < A.length),
      A[t] = indexedFile.mk (Int.ofNat (idx + t)) e[t] true := by
    intro t ht ht2
    simp [hA, List.getElem_map, List.getElem_enum]
  have hAdir : ∀ y ∈ A, y.Dir = true := by
    intro y hy
    simp only [hA, List.mem_map] at hy
    obtain ⟨p, _, hp⟩ := hy
    rw [← hp]
  have hAnames : A.map indexedFile.Name = e := by
    rw [hA, List.map_map]
    exact List.enum_map_snd e
  have hepush : ∀ x ∈ e, x ∈ dirIter (f.length + 1) (dir f) ∧ x ∉ seen := by
    intro x hx
    exact walkDirs_pushed_mem _ _ _ x (List.mem_reverse.mp hx)
  have henodup : e.Nodup := List.nodup_reverse.mpr (walkDirs_pushed_nodup _ _ _)
  have hseen2 : w.1 = e ++ seen := by rw [walkDirs_seen]
  have hdn : dirNames (out ++ A ++ [fe]) = dirNames out ++ e := by
    simp only [dirNames, List.filter_append]
    have h1 : A.filter (fun e2 => e2.Dir) = A := by
      apply List.filter_eq_self.mpr
      intro a ha
      exact hAdir a ha
    have h2 : [fe].filter (fun e2 => e2.Dir) = [] := by simp [hfe]
    rw [h1, h2, List.append_nil, List.map_append, hAnames]
  have hidx : idx = out.length := h.idx_eq
  constructor
  case idx_eq =>
    show idx + w.2.length + 1 = (out ++ A ++ [fe]).length
    simp only [List.length_append, List.length_cons, List.length_nil]
    omega
  case ids =>
    intro k hk
    show (out ++ A ++ [fe])[k].ID = (k : Int)
    have hk2 : k < out.length + A.length + 1 := by
      simpa using hk
    by_cases h1 : k < out.length
    · rw [getElem_append3_left h1]
      exact h.ids k h1
    · by_cases h2 : k < out.length + A.length
      · obtain ⟨t, rfl⟩ : ∃ t, k = out.length + t := ⟨k - out.length, by omega⟩
        have ht : t < A.length := by omega
        rw [getElem_append3_mid ht, hAget t (by omega) ht]
        show Int.ofNat (idx + t) = ((out.length + t : Nat) : Int)
        rw [hidx]
        rfl
      · have hke : k = out.length + A.length := by omega
        subst hke
        rw [getElem_append3_last]
        show Int.ofNat (idx + w.2.length) = ((out.length + A.length : Nat) : Int)
        rw [hidx, ← hel, hAl]
        rfl
  case seen_iff =>
    intro x
    show x ∈ w.1 ↔ x ∈ dirNames (out ++ A ++ [fe])
    rw [hseen2, hdn]
    have hsx : x ∈ seen ↔ x ∈ dirNames out := h.seen_iff x
    simp only [List.mem_append, hsx]
    tauto
  case seen_nodup =>
    show w.1.Nodup
    rw [hseen2, List.nodup_append]
    refine ⟨henodup, h.seen_nodup, ?_⟩
    intro a ha
    exact (hepush a ha).2
  case dirs_nodup =>
    show (dirNames (out ++ A ++ [fe])).Nodup
    rw [hdn, List.nodup_append]
    refine ⟨h.dirs_nodup, henodup, ?_⟩
    intro a ha hae
    have h1 : a ∈ seen := (h.seen_iff a).mpr ha
    exact (hepush a hae).2 h1
  case seen_set =>
    show w.1.toFinset = ((processed ++ [f]).flatMap ancestorChain).toFinset
    rw [hseen2, List.toFinset_append]
    have hflat : ((processed ++ [f]).flatMap ancestorChain).toFinset =
        (processed.flatMap ancestorChain).toFinset ∪ (ancestorChain f).toFinset := by
      rw [List.flatMap_append, List.toFinset_append]
      simp
    rw [hflat]
    have hss : seen.toFinset = (processed.flatMap ancestorChain).toFinset := h.seen_set
    apply Finset.ext
    intro a
    simp only [Finset.mem_union, List.mem_toFinset]
    constructor
    · rintro (ha | ha)
      · exact Or.inr (hepush a ha).1
      · left
        rw [← List.mem_toFinset, hss, List.mem_toFinset] at ha
        exact ha
    · rintro (ha | ha)
      · right
        rw [← List.mem_toFinset, ← hss, List.mem_toFinset] at ha
        exact ha
      · rcases walkDirs_covers (f.length + 1) (dir f) seen a ha with h2 | h2
        · exact Or.inl (List.mem_reverse.mpr h2)
        · exact Or.inr h2
  case file_count =>
    show ((out ++ A ++ [fe]).filter (fun e2 => !e2.Dir)).length = (processed ++ [f]).length
    have h1 : A.filter (fun e2 => !e2.Dir) = [] := by
      apply List.filter_eq_nil_iff.mpr
      intro a ha
      simp [hAdir a ha]
    have h2 : [fe].filter (fun e2 => !e2.Dir) = [fe] := by simp [hfe]
    have hfc : (out.filter (fun e2 => !e2.Dir)).length = processed.length := h.file_count
    simp only [List.filter_append, h1, h2, List.append_nil, List.length_append,
      List.length_cons, List.length_nil, hfc]

/-- The counting invariant holds initially. -/
theorem countInv_init : CountInv [] ([], 0, []) := by
  constructor
  · rfl
  · intro k hk; simp at hk
  · intro x; simp [dirNames]
  · simp
  · simp [dirNames]
  · simp
  · simp

/-- The counting invariant is preserved along the whole fold. -/
theorem countInv_fold : ∀ (files processed : List String)
    (st : List String × Nat × List indexedFile),
    CountInv processed st → CountInv (processed ++ files) (files.foldl indexStep st) := by
  intro files
  induction files with
  | nil =>
    intro processed st h
    simpa using h
  | cons f rest ih =>
    intro processed st h
    obtain ⟨seen, idxout⟩ := st
    obtain ⟨idx, out⟩ := idxout
    have h2 := countInv_step processed seen idx out f h
    have h3 := ih (processed ++ [f]) _ h2
    have hl : processed ++ [f] ++ rest = processed ++ f :: rest := by simp
    rw [hl] at h3
    exact h3

end Mpdsub

namespace Mpdsub

/-! ### Claim C6: index size and uniqueness -/

/-- C6: for every input path list, the index has exactly (number of
distinct ancestor directories across all paths) + (number of input
paths) entries, no path appears twice as a directory entry, and no id
is assigned twice within one build. -/
theorem indexFiles_count_nodup (files : List String) :
    (indexFiles files).length = distinctAncestors files + files.length ∧
    (dirNames (indexFiles files)).Nodup ∧
    ((indexFiles files).map indexedFile.ID).Nodup := by
  have h := countInv_fold files [] ([], 0, []) countInv_init
  rw [List.nil_append] at h
  have hout : indexFiles files = (files.foldl indexStep ([], 0, [])).2.2 := rfl
  refine ⟨?_, ?_, ?_⟩
  · rw [hout]
    set st := files.foldl indexStep ([], 0, []) with hst
    have hsplit := length_filter_split (fun e2 : indexedFile => e2.Dir) st.2.2
    have hdirnames : (dirNames st.2.2).length = (st.2.2.filter (fun e2 => e2.Dir)).length := by
      simp [dirNames]
    have hfin : st.1.toFinset = (dirNames st.2.2).toFinset := by
      apply Finset.ext
      intro a
      simp only [List.mem_toFinset]
      exact h.seen_iff a
    have hlen1 : st.1.length = (dirNames st.2.2).length := by
      rw [← List.toFinset_card_of_nodup h.seen_nodup,
        ← List.toFinset_card_of_nodup h.dirs_nodup, hfin]
    have hda : distinctAncestors files = st.1.length := by
      rw [distinctAncestors, ← h.seen_set, List.toFinset_card_of_nodup h.seen_nodup]
    have hfc : (st.2.2.filter (fun e2 => !e2.Dir)).length = files.length := h.file_count
    omega
  · exact h.dirs_nodup
  · rw [hout]
    set st := files.foldl indexStep ([], 0, []) with hst
    have hmap : st.2.2.map indexedFile.ID = (List.range st.2.2.length).map Int.ofNat := by
      apply List.ext_getElem (by simp)
      intro n h1 h2
      simp only [List.getElem_map, List.getElem_range]
      exact h.ids n (by simpa using h1)
    rw [hmap]
    refine List.Nodup.map ?_ (List.nodup_range _)
    intro a b hab
    exact Int.ofNat.inj hab

end Mpdsub

namespace Mpdsub

/-! ### The ordering invariant of the index builder -/

set_option maxHeartbeats 8000000 in
/-- One step of the fold preserves the ordering invariant, provided the
processed path is good (its ancestor walk terminates). -/
theorem orderInv_step (processed : List String) (seen : List String) (idx : Nat)
    (out : List indexedFile) (f : String) (hg : goodPath f = true)
    (h : OrderInv processed (seen, idx, out)) :
    OrderInv (processed ++ [f]) (indexStep (seen, idx, out) f) := by
  rw [indexStep_eq]
  set w := walkDirs (f.length + 1) (dir f) seen with hw
  set e := w.2.reverse with he
  set A := e.enum.map (fun p => indexedFile.mk (Int.ofNat (idx + p.1)) p.2 true) with hA
  set fe := indexedFile.mk (Int.ofNat (idx + w.2.length)) f false with hfe
  have hel : e.length = w.2.length := List.length_reverse _
  have hAl : A.length = e.length := by simp [hA, List.enum_length]
  have hAget : ∀ t (ht : t < e.length) (ht2 : t < A.length),
      A[t] = indexedFile.mk (Int.ofNat (idx + t)) e[t] true := by
    intro t ht ht2
    simp [hA, List.getElem_map, List.getElem_enum]
  have hepush : ∀ x ∈ e, x ∈ dirIter (f.length + 1) (dir f) ∧ x ∉ seen := by
    intro x hx
    exact walkDirs_pushed_mem _ _ _ x (List.mem_reverse.mp hx)
  have henodup : e.Nodup := List.nodup_reverse.mpr (walkDirs_pushed_nodup _ _ _)
  have hseen2 : w.1 = e ++ seen := by rw [walkDirs_seen]
  have hidx : idx = out.length := h.idx_eq
  have hgood : chainDone (f.length + 1) (dir f) = true := hg
  have hvsub : w.2.Sublist (dirIter (f.length + 1) (dir f)) := walkDirs_pushed_sublist _ _ _
  have hmid : ∀ t (ht : t < A.length) (hb : out.length + t < (out ++ A ++ [fe]).length),
      (out ++ A ++ [fe])[out.length + t] = indexedFile.mk (Int.ofNat (idx + t)) e[t] true := by
    intro t ht hb
    rw [getElem_append3_mid ht, hAget t (by omega) ht]
  have hmidName : ∀ t (ht : t < A.length) (hb : out.length + t < (out ++ A ++ [fe]).length),
      (out ++ A ++ [fe])[out.length + t].Name = e[t] := by
    intro t ht hb
    rw [hmid t ht hb]
  -- for any pushed directory, any complete walk from it stays inside
  -- the visited sequence and the seen set
  have hdirchain : ∀ d ∈ w.2, ∀ n, chainDone n (dir d) = true →
      (∃ r, chainDone r (dir d) = true ∧
        dirIter n (dir d) = dirIter r (dir d) ∧
        ∀ x ∈ dirIter r (dir d), x ∈ dirIter (f.length + 1) (dir f)) := by
    intro d hd n hc
    have hdv : d ∈ dirIter (f.length + 1) (dir f) := hvsub.subset hd
    obtain ⟨s, t, hsplit⟩ := List.append_of_mem hdv
    obtain ⟨r, _, hteq, htrans⟩ := dirIter_suffix s _ _ d t hsplit
    have hcr : chainDone r (dir d) = true := htrans hgood
    refine ⟨r, hcr, dirIter_fuel_irrel n r (dir d) hc hcr, ?_⟩
    intro x hx
    rw [← hteq] at hx
    rw [hsplit]
    exact List.mem_append_right _ (List.mem_cons_of_mem _ hx)
  -- any pushed directory has a complete own walk
  have hdirdone : ∀ d ∈ w.2, ∃ nn, chainDone nn d = true := by
    intro d hd
    have hdv : d ∈ dirIter (f.length + 1) (dir f) := hvsub.subset hd
    obtain ⟨s, t, hsplit⟩ := List.append_of_mem hdv
    obtain ⟨r, _, hteq, htrans⟩ := dirIter_suffix s _ _ d t hsplit
    have hcr : chainDone r (dir d) = true := htrans hgood
    refine ⟨r + 1, ?_⟩
    simp only [chainDone, Bool.or_eq_true, beq_iff_eq]
    exact Or.inr hcr
  constructor
  case idx_eq =>
    show idx + w.2.length + 1 = (out ++ A ++ [fe]).length
    simp only [List.length_append, List.length_cons, List.length_nil]
    omega
  case ids =>
    intro k hk
    show (out ++ A ++ [fe])[k].ID = (k : Int)
    have hk2 : k < out.length + A.length + 1 := by simpa using hk
    by_cases h1 : k < out.length
    · rw [getElem_append3_left h1]
      exact h.ids k h1
    · by_cases h2 : k < out.length + A.length
      · obtain ⟨t, rfl⟩ : ∃ t, k = out.length + t := ⟨k - out.length, by omega⟩
        have ht : t < A.length := by omega
        rw [hmid t ht (by simpa using hk)]
        show Int.ofNat (idx + t) = ((out.length + t : Nat) : Int)
        rw [hidx]
        rfl
      · have hke : k = out.length + A.length := by omega
        subst hke
        rw [getElem_append3_last]
        show Int.ofNat (idx + w.2.length) = ((out.length + A.length : Nat) : Int)
        rw [hidx, ← hel, hAl]
        rfl
  case seen_iff =>
    intro x
    show x ∈ w.1 ↔ ∃ i, ∃ hi : i < (out ++ A ++ [fe]).length,
      (out ++ A ++ [fe])[i].Dir = true ∧ (out ++ A ++ [fe])[i].Name = x
    rw [hseen2, List.mem_append]
    constructor
    · rintro (hx | hx)
      · obtain ⟨t, ht, hte⟩ := List.mem_iff_getElem.mp hx
        have ht2 : t < A.length := by omega
        have hb : out.length + t < (out ++ A ++ [fe]).length := by simp; omega
        exact ⟨out.length + t, hb, by rw [hmid t ht2 hb], by rw [hmid t ht2 hb]; exact hte⟩
      · obtain ⟨i, hi, hdir, hname⟩ := (h.seen_iff x).mp hx
        have hi2 : i < out.length := hi
        have hb : i < (out ++ A ++ [fe]).length := by simp; omega
        refine ⟨i, hb, ?_, ?_⟩
        · rw [getElem_append3_left hi2]; exact hdir
        · rw [getElem_append3_left hi2]; exact hname
    · rintro ⟨i, hi, hdir, hname⟩
      have hi2 : i < out.length + A.length + 1 := by simpa using hi
      by_cases h1 : i < out.length
      · rw [getElem_append3_left h1] at hdir hname
        exact Or.inr ((h.seen_iff x).mpr ⟨i, h1, hdir, hname⟩)
      · by_cases h2 : i < out.length + A.length
        · obtain ⟨t, rfl⟩ : ∃ t, i = out.length + t := ⟨i - out.length, by omega⟩
          have ht : t < A.length := by omega
          rw [hmidName t ht hi] at hname
          left
          rw [← hname]
          exact List.getElem_mem _
        · have hke : i = out.length + A.length := by omega
          subst hke
          rw [getElem_append3_last] at hdir
          exact absurd hdir (by simp [hfe])
  case name_inj =>
    intro i1 i2 h1 h2 hd1 hd2 hnn
    have h1b : i1 < (out ++ A ++ [fe]).length := h1
    have h2b : i2 < (out ++ A ++ [fe]).length := h2
    have hd1b : (out ++ A ++ [fe])[i1].Dir = true := hd1
    have hd2b : (out ++ A ++ [fe])[i2].Dir = true := hd2
    have hnnb : (out ++ A ++ [fe])[i1].Name = (out ++ A ++ [fe])[i2].Name := hnn
    have h1c : i1 < out.length + A.length + 1 := by simpa using h1b
    have h2c : i2 < out.length + A.length + 1 := by simpa using h2b
    have hnotlast1 : i1 ≠ out.length + A.length := by
      intro hke
      subst hke
      rw [getElem_append3_last] at hd1b
      exact absurd hd1b (by simp [hfe])
    have hnotlast2 : i2 ≠ out.length + A.length := by
      intro hke
      subst hke
      rw [getElem_append3_last] at hd2b
      exact absurd hd2b (by simp [hfe])
    by_cases c1 : i1 < out.length
    · by_cases c2 : i2 < out.length
      · rw [getElem_append3_left c1, getElem_append3_left c2] at hnnb
        rw [getElem_append3_left c1] at hd1b
        rw [getElem_append3_left c2] at hd2b
        exact h.name_inj i1 i2 c1 c2 hd1b hd2b hnnb
      · obtain ⟨t2, rfl⟩ : ∃ t, i2 = out.length + t := ⟨i2 - out.length, by omega⟩
        have ht2 : t2 < A.length := by omega
        rw [getElem_append3_left c1, hmidName t2 ht2 h2b] at hnnb
        rw [getElem_append3_left c1] at hd1b
        have hseen3 : out[i1].Name ∈ seen :=
          (h.seen_iff _).mpr ⟨i1, c1, hd1b, rfl⟩
        rw [hnnb] at hseen3
        exact absurd hseen3 (hepush _ (List.getElem_mem _)).2
    · obtain ⟨t1, rfl⟩ : ∃ t, i1 = out.length + t := ⟨i1 - out.length, by omega⟩
      have ht1 : t1 < A.length := by omega
      by_cases c2 : i2 < out.length
      · rw [hmid t1 ht1 h1b, getElem_append3_left c2] at hnnb
        rw [getElem_append3_left c2] at hd2b
        have hseen3 : out[i2].Name ∈ seen :=
          (h.seen_iff _).mpr ⟨i2, c2, hd2b, rfl⟩
        rw [← hnnb] at hseen3
        exact absurd hseen3 (hepush _ (List.getElem_mem _)).2
      · obtain ⟨t2, rfl⟩ : ∃ t, i2 = out.length + t := ⟨i2 - out.length, by omega⟩
        have ht2 : t2 < A.length := by omega
        rw [hmidName t1 ht1 h1b, hmidName t2 ht2 h2b] at hnnb
        have := (henodup.getElem_inj_iff).mp hnnb
        omega
  case file_processed =>
    intro j hj hdj
    have hjb : j < (out ++ A ++ [fe]).length := hj
    have hdjb : (out ++ A ++ [fe])[j].Dir = false := hdj
    show (out ++ A ++ [fe])[j].Name ∈ processed ++ [f]
    have hjc : j < out.length + A.length + 1 := by simpa using hjb
    by_cases c1 : j < out.length
    · rw [getElem_append3_left c1] at hdjb ⊢
      exact List.mem_append_left _ (h.file_processed j c1 hdjb)
    · by_cases c2 : j < out.length + A.length
      · obtain ⟨t, rfl⟩ : ∃ t, j = out.length + t := ⟨j - out.length, by omega⟩
        have ht : t < A.length := by omega
        have hdirt : (out ++ A ++ [fe])[out.length + t].Dir = true := by
          rw [hmid t ht hjb]
        rw [hdirt] at hdjb
        exact absurd hdjb (by simp)
      · have hke : j = out.length + A.length := by omega
        subst hke
        rw [getElem_append3_last]
        simp [hfe]
  case closure_file =>
    intro g hgmem x hx
    show x ∈ w.1
    rw [hseen2]
    rcases List.mem_append.mp hgmem with hgp | hgf
    · exact List.mem_append_right _ (h.closure_file g hgp x hx)
    · have hgf2 : g = f := by simpa using hgf
      subst hgf2
      rcases walkDirs_covers (g.length + 1) (dir g) seen x hx with h2 | h2
      · exact List.mem_append_left _ (List.mem_reverse.mpr h2)
      · exact List.mem_append_right _ h2
  case closure_dir =>
    intro d hd n hc x hx
    show x ∈ w.1
    have hd2 : d ∈ w.1 := hd
    rw [hseen2] at hd2 ⊢
    rcases List.mem_append.mp hd2 with hde | hds
    · have hdw : d ∈ w.2 := List.mem_reverse.mp hde
      obtain ⟨r, hcr, hirr, hsubv⟩ := hdirchain d hdw n hc
      rw [hirr] at hx
      rcases walkDirs_covers (f.length + 1) (dir f) seen x (hsubv x hx) with h2 | h2
      · exact List.mem_append_left _ (List.mem_reverse.mpr h2)
      · exact List.mem_append_right _ h2
    · exact List.mem_append_right _ (h.closure_dir d hds n hc x hx)
  case order_dir_file =>
    intro i j hi hj hdi hdj hmem
    have hib : i < (out ++ A ++ [fe]).length := hi
    have hjb : j < (out ++ A ++ [fe]).length := hj
    have hdib : (out ++ A ++ [fe])[i].Dir = true := hdi
    have hdjb : (out ++ A ++ [fe])[j].Dir = false := hdj
    have hmemb : (out ++ A ++ [fe])[i].Name ∈ ancestorChain (out ++ A ++ [fe])[j].Name := hmem
    have hic : i < out.length + A.length + 1 := by simpa using hib
    have hjc : j < out.length + A.length + 1 := by simpa using hjb
    have hnotlasti : i ≠ out.length + A.length := by
      intro hke
      subst hke
      rw [getElem_append3_last] at hdib
      exact absurd hdib (by simp [hfe])
    by_cases cj1 : j < out.length
    · by_cases ci1 : i < out.length
      · rw [getElem_append3_left ci1] at hdib
        rw [getElem_append3_left cj1] at hdjb
        rw [getElem_append3_left ci1, getElem_append3_left cj1] at hmemb
        exact h.order_dir_file i j ci1 cj1 hdib hdjb hmemb
      · obtain ⟨t, rfl⟩ : ∃ t, i = out.length + t := ⟨i - out.length, by omega⟩
        have ht : t < A.length := by omega
        rw [getElem_append3_left cj1] at hdjb
        rw [hmidName t ht hib, getElem_append3_left cj1] at hmemb
        have hproc : out[j].Name ∈ processed := h.file_processed j cj1 hdjb
        have hseen3 : e[t] ∈ seen := h.closure_file _ hproc _ hmemb
        exact absurd hseen3 (hepush _ (List.getElem_mem _)).2
    · by_cases cj2 : j < out.length + A.length
      · obtain ⟨t, rfl⟩ : ∃ t, j = out.length + t := ⟨j - out.length, by omega⟩
        have ht : t < A.length := by omega
        have hdirt : (out ++ A ++ [fe])[out.length + t].Dir = true := by
          rw [hmid t ht hjb]
        rw [hdirt] at hdjb
        exact absurd hdjb (by simp)
      · have hke : j = out.length + A.length := by omega
        subst hke
        omega
  case order_dir_dir =>
    intro i1 i2 h1 h2 hd1 hd2 n hcd hmem
    have h1b : i1 < (out ++ A ++ [fe]).length := h1
    have h2b : i2 < (out ++ A ++ [fe]).length := h2
    have hd1b : (out ++ A ++ [fe])[i1].Dir = true := hd1
    have hd2b : (out ++ A ++ [fe])[i2].Dir = true := hd2
    have hcdb : chainDone n (dir (out ++ A ++ [fe])[i1].Name) = true := hcd
    have hmemb : (out ++ A ++ [fe])[i2].Name ∈ dirIter n (dir (out ++ A ++ [fe])[i1].Name) := hmem
    have h1c : i1 < out.length + A.length + 1 := by simpa using h1b
    have h2c : i2 < out.length + A.length + 1 := by simpa using h2b
    have hnotlast1 : i1 ≠ out.length + A.length := by
      intro hke
      subst hke
      rw [getElem_append3_last] at hd1b
      exact absurd hd1b (by simp [hfe])
    have hnotlast2 : i2 ≠ out.length + A.length := by
      intro hke
      subst hke
      rw [getElem_append3_last] at hd2b
      exact absurd hd2b (by simp [hfe])
    by_cases c1 : i1 < out.length
    · by_cases c2 : i2 < out.length
      · rw [getElem_append3_left c1] at hd1b hcdb hmemb
        rw [getElem_append3_left c2] at hd2b hmemb
        exact h.order_dir_dir i1 i2 c1 c2 hd1b hd2b n hcdb hmemb
      · obtain ⟨t2, rfl⟩ : ∃ t, i2 = out.length + t := ⟨i2 - out.length, by omega⟩
        have ht2 : t2 < A.length := by omega
        rw [getElem_append3_left c1] at hd1b hcdb hmemb
        rw [hmidName t2 ht2 h2b] at hmemb
        have hseen1 : out[i1].Name ∈ seen := (h.seen_iff _).mpr ⟨i1, c1, hd1b, rfl⟩
        have hseen3 : e[t2] ∈ seen := h.closure_dir _ hseen1 n hcdb _ hmemb
        exact absurd hseen3 (hepush _ (List.getElem_mem _)).2
    · obtain ⟨t1, rfl⟩ : ∃ t, i1 = out.length + t := ⟨i1 - out.length, by omega⟩
      have ht1 : t1 < A.length := by omega
      by_cases c2 : i2 < out.length
      · omega
      · obtain ⟨t2, rfl⟩ : ∃ t, i2 = out.length + t := ⟨i2 - out.length, by omega⟩
        have ht2 : t2 < A.length := by omega
        simp only [hmidName t1 ht1 h1b] at hcdb hmemb
        simp only [hmidName t2 ht2 h2b] at hmemb
        -- now hcdb : chainDone n (dir e[t1]), hmemb : e[t2] ∈ dirIter n (dir e[t1])
        -- goal: out.length + t2 < out.length + t1
        have hq1 : t1 < w.2.length := by omega
        have hq2 : t2 < w.2.length := by omega
        have hrev1 : e[t1] = w.2[w.2.length - 1 - t1] :=
          List.getElem_reverse _
        have hrev2 : e[t2] = w.2[w.2.length - 1 - t2] :=
          List.getElem_reverse _
        by_contra hcon
        have hle : t1 ≤ t2 := by omega
        rcases Nat.lt_or_ge t1 t2 with hlt | hge
        · -- t1 < t2: the two pushed entries would each lie on the
          -- other's walk, giving a cycle
          set p1 := w.2.length - 1 - t1 with hp1
          set p2 := w.2.length - 1 - t2 with hp2
          have hpp : p2 < p1 := by omega
          have hp1lt : p1 < w.2.length := by omega
          have hp2lt : p2 < w.2.length := by omega
          have hx1w : e[t1] ∈ w.2 := by
            rw [hrev1]
            exact List.getElem_mem _
          have hx1dot : e[t1] ≠ "." :=
            dirIter_ne_dot _ _ _ (hvsub.subset hx1w)
          have hdrop : w.2.drop p2 = w.2[p2] :: w.2.drop (p2 + 1) :=
            List.drop_eq_getElem_cons hp2lt
          have hx1mem : e[t1] ∈ w.2.drop (p2 + 1) := by
            rw [hrev1]
            apply List.mem_iff_getElem.mpr
            refine ⟨p1 - (p2 + 1), by rw [List.length_drop]; omega, ?_⟩
            rw [List.getElem_drop]
            congr 1
            omega
          have hsub2 : (w.2[p2] :: w.2.drop (p2 + 1)).Sublist
              (dirIter (f.length + 1) (dir f)) := by
            rw [← hdrop]
            exact (List.drop_sublist _ _).trans hvsub
          rw [← hrev2] at hsub2
          obtain ⟨r1, r2, hveq, hx2r1, hrestr2⟩ := List.cons_sublist_iff.mp hsub2
          obtain ⟨s, u, hr1eq⟩ := List.append_of_mem hx2r1
          have hveq2 : dirIter (f.length + 1) (dir f) = s ++ e[t2] :: (u ++ r2) := by
            rw [hveq, hr1eq]
            simp [List.append_assoc]
          obtain ⟨rr, _, hteq2, htrans2⟩ :=
            dirIter_suffix s (f.length + 1) (dir f) (e[t2]) (u ++ r2) hveq2
          have hcrr : chainDone rr (dir e[t2]) = true := htrans2 hgood
          have hx1chain : e[t1] ∈ dirIter rr (dir e[t2]) := by
            rw [← hteq2]
            exact List.mem_append_right _ (hrestr2.subset hx1mem)
          obtain ⟨nn, hnn⟩ := hdirdone _ hx1w
          exact cross_chain_cycle nn n rr (e[t1]) (e[t2]) hnn hx1dot hmemb hx1chain
        · -- t1 = t2: an entry would lie on its own walk
          have hteq : t1 = t2 := by omega
          subst hteq
          have hself : e[t1] ∈ dirIter n (dir e[t1]) := hmemb
          have hw2mem : e[t1] ∈ w.2 := by
            rw [hrev1]
            exact List.getElem_mem _
          obtain ⟨nn, hnn⟩ := hdirdone _ hw2mem
          exact not_mem_own_chain n nn _ hnn hself

end Mpdsub

namespace Mpdsub

/-- The ordering invariant holds for the empty initial state. -/
theorem orderInv_init : OrderInv [] ([], 0, []) := by
  constructor
  · rfl
  · intro k hk; simp at hk
  · intro x
    constructor
    · intro hx; simp at hx
    · rintro ⟨i, hi, _⟩; simp at hi
  · intro i1 i2 h1 h2; simp at h1
  · intro j hj; simp at hj
  · intro f hf; simp at hf
  · intro d hd; simp at hd
  · intro i j hi hj; simp at hi
  · intro i1 i2 h1 h2; simp at h1

/-- The ordering invariant is preserved along the whole fold, as long
as every processed path is good. -/
theorem orderInv_fold : ∀ (files processed : List String)
    (st : List String × Nat × List indexedFile),
    (∀ f ∈ files, goodPath f = true) →
    OrderInv processed st → OrderInv (processed ++ files) (files.foldl indexStep st) := by
  intro files
  induction files with
  | nil =>
    intro processed st _ h
    simpa using h
  | cons f rest ih =>
    intro processed st hgood h
    obtain ⟨seen, idxout⟩ := st
    obtain ⟨idx, out⟩ := idxout
    have h2 := orderInv_step processed seen idx out f (hgood f (List.mem_cons_self _ _)) h
    have h3 := ih (processed ++ [f]) _
      (fun g hg => hgood g (List.mem_cons_of_mem _ hg)) h2
    have hl : processed ++ [f] ++ rest = processed ++ f :: rest := by simp
    rw [hl] at h3
    exact h3

end Mpdsub

namespace Mpdsub

/-- C7: in every index built by `indexFiles` from paths whose ancestor
walks terminate, each directory entry's id is strictly lower than the
id of every file entry it is a (transitive) ancestor of, and the
ancestor directories of each file receive their ids in shallow-to-deep
order: of two directory entries named by positions k1 < k2 of a file's
ancestor chain (nearest parent first), the shallower one (position k2)
has the strictly smaller id. -/
theorem indexFiles_id_order (files : List String)
    (hgood : ∀ f ∈ files, goodPath f = true) :
    (∀ i j (hi : i < (indexFiles files).length) (hj : j < (indexFiles files).length),
      (indexFiles files)[i].Dir = true → (indexFiles files)[j].Dir = false →
      (indexFiles files)[i].Name ∈ ancestorChain (indexFiles files)[j].Name →
      (indexFiles files)[i].ID < (indexFiles files)[j].ID) ∧
    (∀ g ∈ files, ∀ k1 k2 (hk1 : k1 < (ancestorChain g).length)
      (hk2 : k2 < (ancestorChain g).length), k1 < k2 →
      ∀ i1 i2 (h1 : i1 < (indexFiles files).length)
        (h2 : i2 < (indexFiles files).length),
      (indexFiles files)[i1].Dir = true → (indexFiles files)[i2].Dir = true →
      (indexFiles files)[i1].Name = (ancestorChain g)[k1] →
      (indexFiles files)[i2].Name = (ancestorChain g)[k2] →
      (indexFiles files)[i2].ID < (indexFiles files)[i1].ID) := by
  have h := orderInv_fold files [] ([], 0, []) hgood orderInv_init
  rw [List.nil_append] at h
  constructor
  · intro i j hi hj hdi hdj hanc
    have hlt : i < j := h.order_dir_file i j hi hj hdi hdj hanc
    have hidi : (indexFiles files)[i].ID = (i : Int) := h.ids i hi
    have hidj : (indexFiles files)[j].ID = (j : Int) := h.ids j hj
    rw [hidi, hidj]
    exact_mod_cast hlt
  · intro g hg k1 k2 hk1 hk2 hklt i1 i2 h1 h2 hd1 hd2 hn1 hn2
    have hcg : chainDone (g.length + 1) (dir g) = true := hgood g hg
    have hsplit : dirIter (g.length + 1) (dir g) =
        (ancestorChain g).take k1 ++
          (ancestorChain g)[k1] :: (ancestorChain g).drop (k1 + 1) := by
      rw [← List.drop_eq_getElem_cons hk1]
      exact (List.take_append_drop _ _).symm
    obtain ⟨r, _, hdropeq, htrans⟩ :=
      dirIter_suffix ((ancestorChain g).take k1) (g.length + 1) (dir g)
        ((ancestorChain g)[k1]) ((ancestorChain g).drop (k1 + 1)) hsplit
    have hcd1 : chainDone r (dir (ancestorChain g)[k1]) = true := htrans hcg
    have hmem2 : (ancestorChain g)[k2] ∈ dirIter r (dir (ancestorChain g)[k1]) := by
      rw [← hdropeq]
      apply List.mem_iff_getElem.mpr
      refine ⟨k2 - (k1 + 1), by rw [List.length_drop]; omega, ?_⟩
      rw [List.getElem_drop]
      congr 1
      omega
    rw [← hn1] at hcd1 hmem2
    rw [← hn2] at hmem2
    have hlt2 : i2 < i1 := h.order_dir_dir i1 i2 h1 h2 hd1 hd2 r hcd1 hmem2
    have hid1 : (indexFiles files)[i1].ID = (i1 : Int) := h.ids i1 h1
    have hid2 : (indexFiles files)[i2].ID = (i2 : Int) := h.ids i2 h2
    rw [hid1, hid2]
    exact_mod_cast hlt2

/-- Witness for C7 on files = [a/b/c.mp3]: the root-most ancestor
directory a gets id 0, the deeper ancestor a/b gets id 1, the file
gets id 2. -/
theorem indexFiles_id_order_witness :
    (indexFiles ["a/b/c.mp3"])[0].ID < (indexFiles ["a/b/c.mp3"])[2].ID ∧
    (indexFiles ["a/b/c.mp3"])[0].ID < (indexFiles ["a/b/c.mp3"])[1].ID := by
  have h := indexFiles_id_order ["a/b/c.mp3"] (by decide)
  constructor
  · exact h.1 0 2 (by decide) (by decide) (by decide) (by decide) (by decide)
  · exact h.2 "a/b/c.mp3" (by decide) 0 1 (by decide) (by decide) (by decide)
      1 0 (by decide) (by decide) (by decide) (by decide) (by decide) (by decide)

end Mpdsub
